import Mathlib

/-!
# Verification of the real-time ANPR processing core

A shallow embedding, in Lean 4, of the core data model and algorithms of the
real-time ANPR system (vehicle tracking, OCR reading fusion, entry/exit FSM
with plate deduplication, and the durable write queue), together with proofs
of the specification's claims about them.

Modelling conventions:
* Python floats (timestamps, confidences, pixel coordinates) are modelled as
  rationals (`ℚ`); Python ints as `ℕ`.  `datetime` values become rational
  timestamps measured in seconds; multiple `datetime.now()` calls inside a
  single handler are modelled as one instant, which is passed explicitly.
* Python dicts keyed by track id are association lists in insertion order
  (Python 3.7+ dicts preserve insertion order, which matters for iteration),
  or plain functions when only point lookups with a default occur.
* The Kalman filter's numerical linear algebra (numpy floating-point matrix
  arithmetic, including a matrix inverse) is an external numeric computation;
  it is modelled by an abstract state type together with an oracle record of
  its operations.  All theorems below are insensitive to, and quantified
  over, the oracle's values.
* The detection CNN and the OCR text oracle are external collaborators; their
  per-frame outputs enter the embedding as explicit inputs.
-/

namespace ANPR

/-- Track lifecycle states (`TrackState` in `core/events.py`). -/
inductive TrackState where
  | tentative
  | confirmed
  | lost
  | deleted
deriving DecidableEq, Repr

/-- Vehicle position states for entry/exit logic (`VehicleState`). -/
inductive VehicleState where
  | outside
  | approaching
  | inside
  | exiting
  | logged
deriving DecidableEq, Repr

/-- Vehicle classification types (`VehicleType`). -/
inductive VehicleType where
  | car
  | motorcycle
  | bus
  | truck
  | unknown
deriving DecidableEq, Repr

/-- An axis-aligned box `[x1, y1, x2, y2]` in pixel coordinates. -/
abbrev Bbox := ℚ × ℚ × ℚ × ℚ

/-- A single object detection (`Detection` in `core/events.py`). -/
structure Detection where
  bbox : Bbox
  confidence : ℚ
  class_id : ℕ
  class_name : VehicleType
deriving DecidableEq, Repr

/-- One OCR reading stored in a track's plate store:
`{'text', 'confidence', 'timestamp'}`. -/
structure Reading where
  text : String
  confidence : ℚ
  timestamp : ℚ
deriving DecidableEq, Repr

/-- Vehicle track information (`Track` in `core/events.py`). -/
structure Track where
  track_id : ℕ
  camera_id : ℕ
  state : TrackState
  vehicle_type : VehicleType
  first_seen : ℚ
  last_seen : ℚ
  bbox : Bbox
  confidence : ℚ
  color : Option String := none
  velocity : Option (ℚ × ℚ) := none
  hits : ℕ := 0
  age : ℕ := 0
  time_since_update : ℕ := 0
  plate_readings : List Reading := []
  plate_text : Option String := none
  plate_confidence : Option ℚ := none
  plate_locked : Bool := false
  vehicle_state : VehicleState := .outside
deriving DecidableEq, Repr

/-- `Track.update_bbox`: overwrite position, refresh `last_seen`, count the
hit and reset `time_since_update`. -/
def Track.update_bbox (t : Track) (bbox : Bbox) (confidence : ℚ) (now : ℚ) :
    Track :=
  { t with
    bbox := bbox
    confidence := confidence
    last_seen := now
    hits := t.hits + 1
    time_since_update := 0 }

/-- `Track.add_plate_reading`: append an OCR reading, but only while the
plate is not locked. -/
def Track.add_plate_reading (t : Track) (text : String) (confidence : ℚ)
    (now : ℚ) : Track :=
  if t.plate_locked then t
  else
    { t with
      plate_readings :=
        t.plate_readings ++ [⟨text, confidence, now⟩] }

/-- `Track.finalize_plate`: lock the fused plate reading onto the track. -/
def Track.finalize_plate (t : Track) (text : String) (confidence : ℚ) :
    Track :=
  { t with
    plate_text := some text
    plate_confidence := some confidence
    plate_locked := true }

/-! ## IoU (`iou` in `tracking/engine.py`) -/

/-- Intersection over Union of two axis-aligned boxes, exactly as computed by
`iou` in `tracking/engine.py`.  Rational division is total in Lean (`x / 0 =
0`), but as in the source the division is guarded by `union > 0`, so no
division by zero is ever performed. -/
def iou (bbox1 bbox2 : Bbox) : ℚ :=
  let (x1_1, y1_1, x2_1, y2_1) := bbox1
  let (x1_2, y1_2, x2_2, y2_2) := bbox2
  let x1_i := max x1_1 x1_2
  let y1_i := max y1_1 y1_2
  let x2_i := min x2_1 x2_2
  let y2_i := min y2_1 y2_2
  if x2_i < x1_i ∨ y2_i < y1_i then 0
  else
    let intersection := (x2_i - x1_i) * (y2_i - y1_i)
    let area1 := (x2_1 - x1_1) * (y2_1 - y1_1)
    let area2 := (x2_2 - x1_2) * (y2_2 - y1_2)
    let union := area1 + area2 - intersection
    if union > 0 then intersection / union else 0

/-- The intersection area the code computes for two boxes (meaningful when
the overlap is nonempty). -/
def interArea (bbox1 bbox2 : Bbox) : ℚ :=
  (min bbox1.2.2.1 bbox2.2.2.1 - max bbox1.1 bbox2.1) *
    (min bbox1.2.2.2 bbox2.2.2.2 - max bbox1.2.1 bbox2.2.1)

/-- The union area the code computes for two boxes. -/
def unionArea (bbox1 bbox2 : Bbox) : ℚ :=
  (bbox1.2.2.1 - bbox1.1) * (bbox1.2.2.2 - bbox1.2.1) +
    (bbox2.2.2.1 - bbox2.1) * (bbox2.2.2.2 - bbox2.2.1) -
    interArea bbox1 bbox2

/-- A box is well-formed with positive area when `x2 > x1` and `y2 > y1`. -/
def WellFormed (b : Bbox) : Prop := b.1 < b.2.2.1 ∧ b.2.1 < b.2.2.2

/-- The overlap of the two boxes is empty in the sense tested by the code:
the intersection rectangle has `x2_i < x1_i` or `y2_i < y1_i`. -/
def EmptyOverlap (bbox1 bbox2 : Bbox) : Prop :=
  min bbox1.2.2.1 bbox2.2.2.1 < max bbox1.1 bbox2.1 ∨
    min bbox1.2.2.2 bbox2.2.2.2 < max bbox1.2.1 bbox2.2.1

instance (b1 b2 : Bbox) : Decidable (EmptyOverlap b1 b2) := by
  unfold EmptyOverlap; infer_instance

/-- `C10`: for every pair of axis-aligned boxes, including degenerate ones,
`iou` returns a well-defined value without dividing by zero: it returns `0`
whenever the boxes have empty overlap or the computed union area is not
positive, and intersection area divided by union area otherwise; for
well-formed boxes with positive area the value lies in `[0, 1]`. -/
theorem C10_iou_total_safe_and_bounded (b1 b2 : Bbox) :
    (iou b1 b2 =
      if EmptyOverlap b1 b2 ∨ unionArea b1 b2 ≤ 0 then 0
      else interArea b1 b2 / unionArea b1 b2) ∧
    (WellFormed b1 → WellFormed b2 → 0 ≤ iou b1 b2 ∧ iou b1 b2 ≤ 1) := by
  obtain ⟨x11, y11, x21, y21⟩ := b1
  obtain ⟨x12, y12, x22, y22⟩ := b2
  simp only [iou, EmptyOverlap, interArea, unionArea, WellFormed]
  have m1 : x21 ⊓ x22 ≤ x21 := min_le_left _ _
  have m2 : x21 ⊓ x22 ≤ x22 := min_le_right _ _
  have m3 : x11 ≤ x11 ⊔ x12 := le_max_left _ _
  have m4 : x12 ≤ x11 ⊔ x12 := le_max_right _ _
  have n1 : y21 ⊓ y22 ≤ y21 := min_le_left _ _
  have n2 : y21 ⊓ y22 ≤ y22 := min_le_right _ _
  have n3 : y11 ≤ y11 ⊔ y12 := le_max_left _ _
  have n4 : y12 ≤ y11 ⊔ y12 := le_max_right _ _
  constructor
  · split_ifs with h1 h2 h3 h4 h5
    · rfl
    · exact absurd (Or.inl h1) h2
    · exfalso
      rcases h4 with h4 | h4
      · exact h1 h4
      · linarith
    · rfl
    · rfl
    · exfalso
      push_neg at h5
      linarith [h5.2]
  · intro hw1 hw2
    obtain ⟨hx1, hy1⟩ := hw1
    obtain ⟨hx2, hy2⟩ := hw2
    split_ifs with h1 h2
    · norm_num
    · push_neg at h1
      obtain ⟨hxi, hyi⟩ := h1
      have hwI0 : (0 : ℚ) ≤ x21 ⊓ x22 - x11 ⊔ x12 := by linarith
      have hhI0 : (0 : ℚ) ≤ y21 ⊓ y22 - y11 ⊔ y12 := by linarith
      have hA1 : (x21 ⊓ x22 - x11 ⊔ x12) * (y21 ⊓ y22 - y11 ⊔ y12) ≤
          (x21 - x11) * (y21 - y11) :=
        mul_le_mul (by linarith) (by linarith) hhI0 (by linarith)
      have hA2 : (x21 ⊓ x22 - x11 ⊔ x12) * (y21 ⊓ y22 - y11 ⊔ y12) ≤
          (x22 - x12) * (y22 - y12) :=
        mul_le_mul (by linarith) (by linarith) hhI0 (by linarith)
      have hinter0 : 0 ≤ (x21 ⊓ x22 - x11 ⊔ x12) * (y21 ⊓ y22 - y11 ⊔ y12) :=
        mul_nonneg hwI0 hhI0
      refine ⟨div_nonneg hinter0 (le_of_lt h2), ?_⟩
      rw [div_le_one h2]
      linarith
    · norm_num

/-- Witness for `C10` at concrete overlapping boxes. -/
theorem C10_iou_total_safe_and_bounded_witness :
    0 ≤ iou (0, 0, 2, 2) (1, 1, 3, 3) ∧ iou (0, 0, 2, 2) (1, 1, 3, 3) ≤ 1 :=
  (C10_iou_total_safe_and_bounded (0, 0, 2, 2) (1, 1, 3, 3)).2
    (by constructor <;> norm_num) (by constructor <;> norm_num)

/-! ## OCR configuration, throttling and reading fusion (`ocr/engine.py`) -/

/-- The OCR section of the configuration (`OCRConfig` in `core/config.py`).
`throttle_frames` is divided by the float literal `20.0` in the code, so it
is carried as a rational. -/
structure OCRConfig where
  enabled : Bool := true
  throttle_frames : ℚ := 10
  min_plate_confidence : ℚ := 6/10
  max_concurrent : ℕ := 2
  fusion_min_samples : ℕ := 3
  max_samples : ℕ := 5
deriving DecidableEq, Repr

/-- Mutable state of `OCREngine`: load flag, per-track last-OCR times, the
global active-OCR counter and the statistics counters.  `config.enabled` is
mutable in the source (cleared when model loading fails), so it lives here
rather than in the config record. -/
structure OCREngineState where
  enabled : Bool
  is_loaded : Bool
  last_ocr_time : ℕ → Option ℚ
  active_ocr_count : ℕ
  total_ocr_calls : ℕ
  successful_reads : ℕ
  failed_reads : ℕ

/-- `OCREngine.can_process`: the throttling/admission check.  A pure
function of the engine state and the current wall-clock time; it mutates
nothing. -/
def OCREngine.can_process (cfg : OCRConfig) (s : OCREngineState)
    (track_id : ℕ) (now : ℚ) : Bool :=
  if ¬s.enabled ∨ ¬s.is_loaded then false
  else if s.active_ocr_count ≥ cfg.max_concurrent then false
  else
    match s.last_ocr_time track_id with
    | some t =>
        let elapsed := now - t
        let min_interval := cfg.throttle_frames / 20
        if elapsed < min_interval then false else true
    | none => true

/-- One row of the Levenshtein dynamic program: given `prev[j]`, `prev[j+1]`
and `current[j]` (the accumulator `cur_j`), produce the cells
`current[j+1..]` for the remaining characters of `s2`.  Mirrors the inner
loop of `levenshtein_distance`. -/
def levCells (c1 : Char) : List Char → List ℕ → ℕ → List ℕ
  | [], _, _ => []
  | c2 :: rest, pj :: pj1 :: prevRest, cur_j =>
      let insertions := pj1 + 1
      let deletions := cur_j + 1
      let substitutions := pj + (if c1 = c2 then 0 else 1)
      let v := min insertions (min deletions substitutions)
      v :: levCells c1 rest (pj1 :: prevRest) v
  | _ :: _, _, _ => []

/-- The Levenshtein dynamic program of `levenshtein_distance` for
`s1.length ≥ s2.length > 0`: fold the row construction over `s1`, starting
from `previous_row = [0, 1, …, len s2]`, and return the last cell. -/
def levCore (s1 s2 : List Char) : ℕ :=
  let final := s1.foldl
    (fun (acc : List ℕ × ℕ) c1 =>
      let i := acc.2
      let row := (i + 1) :: levCells c1 s2 acc.1 (i + 1)
      (row, i + 1))
    (List.range (s2.length + 1), 0)
  final.1.getLastD 0

/-- `levenshtein_distance` from `ocr/engine.py`: swap so the first string is
the longer one (the single recursive call in the source immediately takes
the non-swapping branch), return `len s1` when `s2` is empty, and otherwise
run the dynamic program. -/
def levenshtein_distance (s1 s2 : String) : ℕ :=
  if s1.length < s2.length then
    if s1.length = 0 then s2.length else levCore s2.toList s1.toList
  else
    if s2.length = 0 then s1.length else levCore s1.toList s2.toList

/-- Greedy grouping step of `OCREngine.fuse_readings`: place a reading into
the first group whose first member's text is within Levenshtein distance 2,
else open a new group.  A group is its first member plus the rest. -/
def placeReading : List (Reading × List Reading) → Reading →
    List (Reading × List Reading)
  | [], r => [(r, [])]
  | g :: rest, r =>
      if levenshtein_distance r.text g.1.text ≤ 2 then
        (g.1, g.2 ++ [r]) :: rest
      else
        g :: placeReading rest r

/-- All groups formed by the greedy Levenshtein grouping, in creation
order. -/
def groupsOf (readings : List Reading) : List (Reading × List Reading) :=
  readings.foldl placeReading []

/-- Number of readings in a group. -/
def groupSize (g : Reading × List Reading) : ℕ := g.2.length + 1

/-- The reading list of a group, in insertion order. -/
def groupMembers (g : Reading × List Reading) : List Reading := g.1 :: g.2

/-- `max(groups, key=len)`: Python's `max` returns the first element
attaining the maximum, so a later group replaces the candidate only when it
is strictly larger. -/
def maxByLen (groups : List (Reading × List Reading)) :
    Option (Reading × List Reading) :=
  groups.foldl
    (fun acc g =>
      match acc with
      | none => some g
      | some b => if groupSize g > groupSize b then some g else acc)
    none

/-- The largest greedy group of a reading list (`none` only when the list is
empty). -/
def largestGroup (readings : List Reading) :
    Option (Reading × List Reading) :=
  maxByLen (groupsOf readings)

/-- Size of the largest greedy group (0 for an empty reading list). -/
def largestGroupSize (readings : List Reading) : ℕ :=
  match largestGroup readings with
  | none => 0
  | some g => groupSize g

/-- `max(readings, key=lambda x: x['confidence'])`: the first reading
attaining the maximal confidence (Python's `max` keeps the earlier element
on ties). -/
def maxConfReading (r : Reading) (rest : List Reading) : Reading :=
  rest.foldl (fun b x => if x.confidence > b.confidence then x else b) r

/-- `collections.Counter(texts).most_common(1)[0][0]`: the keys of a
`Counter` are in first-insertion order and `most_common` sorts stably by
descending count, so the result is the first-appearing text among those with
maximal count.  A later key replaces the candidate only when its count is
strictly larger. -/
def pickFirstMax (cnt : String → ℕ) : List String → Option String
  | [] => none
  | k :: ks =>
      match pickFirstMax cnt ks with
      | none => some k
      | some b => some (if cnt b > cnt k then b else k)

/-- The distinct texts of a list in first-appearance order (the `Counter`
key order). -/
def insertKey (ks : List String) (s : String) : List String :=
  if s ∈ ks then ks else ks ++ [s]

/-- `Counter` key list: distinct texts in first-appearance order. -/
def keysOf (texts : List String) : List String :=
  texts.foldl insertKey []

/-- The most common text of a list, ties broken by first appearance. -/
def mostCommonText (texts : List String) : Option String :=
  pickFirstMax (fun s => texts.count s) (keysOf texts)

/-- The fused result used by the pipeline (`fuse_readings` returns a dict;
the pipeline consumes its `text` and `confidence` entries). -/
structure FuseResult where
  text : String
  confidence : ℚ
deriving DecidableEq, Repr

/-- `OCREngine.fuse_readings` from `ocr/engine.py`: below
`fusion_min_samples` readings (or without a group of that size) return the
highest-confidence single reading; otherwise return the most common text of
the largest greedy group with the mean confidence of that exact text's
occurrences in the group. -/
def OCREngine.fuse_readings (cfg : OCRConfig) (readings : List Reading) :
    Option FuseResult :=
  match readings with
  | [] => none
  | r0 :: rest =>
      if readings.length < cfg.fusion_min_samples then
        let m := maxConfReading r0 rest
        some ⟨m.text, m.confidence⟩
      else
        match largestGroup readings with
        | none => none
        | some g =>
            if groupSize g < cfg.fusion_min_samples then
              let m := maxConfReading r0 rest
              some ⟨m.text, m.confidence⟩
            else
              let texts := (groupMembers g).map Reading.text
              match mostCommonText texts with
              | none => none
              | some mc =>
                  let confs := ((groupMembers g).filter
                    (fun r => r.text = mc)).map Reading.confidence
                  some ⟨mc, confs.sum / confs.length⟩

/-- `OCREngine.recognize_plate`, state effects and outcome.  The computer
vision part (ROI extraction, preprocessing, the PaddleOCR oracle and text
cleaning) is an external numeric computation; its validated outcome enters
as `oracle` (`some (text, confidence)` for a reading that survived cleaning
and the length-3 check, `none` for any of the code's early-return paths,
whose differing statistics-counter effects are coarsened to
`failed_reads + 1`).  On admission the per-track last-OCR time is set to
`now` and the call counter incremented; `active_ocr_count` is incremented
and decremented again in `finally`, so its net effect is zero. -/
def OCREngine.recognize_plate (cfg : OCRConfig) (s : OCREngineState)
    (track_id : ℕ) (now : ℚ) (oracle : Option (String × ℚ)) :
    Option (String × ℚ) × OCREngineState :=
  if ¬OCREngine.can_process cfg s track_id now then (none, s)
  else
    let s1 := { s with
      last_ocr_time := fun k =>
        if k = track_id then some now else s.last_ocr_time k
      total_ocr_calls := s.total_ocr_calls + 1 }
    match oracle with
    | some r =>
        (some r, { s1 with successful_reads := s1.successful_reads + 1 })
    | none => (none, { s1 with failed_reads := s1.failed_reads + 1 })

/-- The plate-finalization sub-block of `ANPRPipeline._process_frame`
(`main.py` lines 185–191): once a track holds at least `fusion_min_samples`
readings, fuse them and, whenever fusion returns a result, lock it onto the
track. -/
def plateFinalizeStep (cfg : OCRConfig) (t : Track) : Track :=
  if t.plate_readings.length ≥ cfg.fusion_min_samples then
    match OCREngine.fuse_readings cfg t.plate_readings with
    | some f => t.finalize_plate f.text f.confidence
    | none => t
  else t

/-- The per-track OCR block of `ANPRPipeline._process_frame` (`main.py`
lines 169–191): for a confirmed, unlocked track that passes the admission
check, run recognition, append any reading, and attempt finalization. -/
def pipelineOCRTrack (cfg : OCRConfig) (oracle : Option (String × ℚ))
    (now : ℚ) (s : OCREngineState) (t : Track) : Track × OCREngineState :=
  if t.state = .confirmed ∧ ¬t.plate_locked then
    if OCREngine.can_process cfg s t.track_id now then
      let res := OCREngine.recognize_plate cfg s t.track_id now oracle
      match res.1 with
      | some (text, conf) =>
          let t1 := t.add_plate_reading text conf now
          (plateFinalizeStep cfg t1, res.2)
      | none => (t, res.2)
    else (t, s)
  else (t, s)

/-! ### Properties of the fusion helpers -/

theorem placeReading_ne_nil (gs : List (Reading × List Reading))
    (r : Reading) : placeReading gs r ≠ [] := by
  cases gs with
  | nil => simp [placeReading]
  | cons g rest =>
      simp only [placeReading]
      split <;> simp

theorem foldl_placeReading_ne_nil (rs : List Reading)
    (gs : List (Reading × List Reading)) (h : gs ≠ []) :
    rs.foldl placeReading gs ≠ [] := by
  induction rs generalizing gs with
  | nil => exact h
  | cons r rs ih =>
      simp only [List.foldl_cons]
      exact ih _ (placeReading_ne_nil gs r)

theorem groupsOf_ne_nil (r : Reading) (rs : List Reading) :
    groupsOf (r :: rs) ≠ [] := by
  simp only [groupsOf, List.foldl_cons, placeReading]
  exact foldl_placeReading_ne_nil rs _ (by simp)

theorem maxByLen_isSome_aux (gs : List (Reading × List Reading))
    (acc : Option (Reading × List Reading)) (h : acc.isSome) :
    (gs.foldl
      (fun acc g =>
        match acc with
        | none => some g
        | some b => if groupSize g > groupSize b then some g else acc)
      acc).isSome := by
  induction gs generalizing acc with
  | nil => exact h
  | cons g gs ih =>
      simp only [List.foldl_cons]
      apply ih
      cases acc with
      | none => simp at h
      | some b =>
          show (if groupSize g > groupSize b then some g else some b).isSome =
            true
          split <;> simp

theorem largestGroup_isSome (r : Reading) (rs : List Reading) :
    (largestGroup (r :: rs)).isSome := by
  unfold largestGroup maxByLen
  rcases h : groupsOf (r :: rs) with _ | ⟨g, gs⟩
  · exact absurd h (groupsOf_ne_nil r rs)
  · simp only [List.foldl_cons]
    exact maxByLen_isSome_aux gs _ (by simp)

theorem maxConfReading_mem (r : Reading) (rest : List Reading) :
    maxConfReading r rest ∈ r :: rest := by
  induction rest generalizing r with
  | nil => simp [maxConfReading]
  | cons x xs ih =>
      simp only [maxConfReading, List.foldl_cons]
      have h := ih (if x.confidence > r.confidence then x else r)
      simp only [maxConfReading] at h
      rcases List.mem_cons.mp h with h | h
      · rw [h]
        split <;> simp
      · simp [h]

theorem maxConfReading_max (r : Reading) (rest : List Reading) :
    ∀ x ∈ r :: rest, x.confidence ≤ (maxConfReading r rest).confidence := by
  induction rest generalizing r with
  | nil => simp [maxConfReading]
  | cons y ys ih =>
      intro x hx
      simp only [maxConfReading, List.foldl_cons]
      have step := ih (if y.confidence > r.confidence then y else r)
      simp only [maxConfReading] at step
      have hhead : r.confidence ≤
          (if y.confidence > r.confidence then y else r).confidence ∧
          y.confidence ≤
          (if y.confidence > r.confidence then y else r).confidence := by
        split
        · exact ⟨by linarith, le_refl _⟩
        · exact ⟨le_refl _, by linarith⟩
      rcases List.mem_cons.mp hx with hx | hx
      · subst hx
        exact le_trans hhead.1 (step _ (List.mem_cons_self _ _))
      · rcases List.mem_cons.mp hx with hx | hx
        · subst hx
          exact le_trans hhead.2 (step _ (List.mem_cons_self _ _))
        · exact step x (List.mem_cons_of_mem _ hx)

theorem fuse_readings_no_consensus (cfg : OCRConfig) (r0 : Reading)
    (rest : List Reading)
    (h2 : cfg.fusion_min_samples ≤ (r0 :: rest).length)
    (h3 : largestGroupSize (r0 :: rest) < cfg.fusion_min_samples) :
    OCREngine.fuse_readings cfg (r0 :: rest) =
      some ⟨(maxConfReading r0 rest).text,
        (maxConfReading r0 rest).confidence⟩ := by
  obtain ⟨g, hg⟩ := Option.isSome_iff_exists.mp (largestGroup_isSome r0 rest)
  have h3' : groupSize g < cfg.fusion_min_samples := by
    simpa [largestGroupSize, hg] using h3
  simp only [OCREngine.fuse_readings]
  rw [if_neg (by omega), hg]
  dsimp only
  rw [if_pos h3']

/-- `C2` (counterexample): three pairwise-distant readings form groups of
size 1 each, below `fusion_min_samples = 3`, yet after the pipeline's OCR
block the plate IS locked (to the highest-confidence reading), contradicting
the claim that `plate_locked` remains false after the fusion step. -/
theorem C2_counterexample :
    (largestGroupSize
        [⟨"AAAA", 9, 0⟩, ⟨"BBBB", 8, 1⟩, ⟨"CCCC", 7, 2⟩] <
      (3 : ℕ)) ∧
    (plateFinalizeStep { fusion_min_samples := 3 }
        { track_id := 1, camera_id := 1, state := .confirmed,
          vehicle_type := .car, first_seen := 0, last_seen := 0,
          bbox := (0, 0, 1, 1), confidence := 1/2,
          plate_readings :=
            [⟨"AAAA", 9, 0⟩, ⟨"BBBB", 8, 1⟩, ⟨"CCCC", 7, 2⟩]
          }).plate_locked = true ∧
    (plateFinalizeStep { fusion_min_samples := 3 }
        { track_id := 1, camera_id := 1, state := .confirmed,
          vehicle_type := .car, first_seen := 0, last_seen := 0,
          bbox := (0, 0, 1, 1), confidence := 1/2,
          plate_readings :=
            [⟨"AAAA", 9, 0⟩, ⟨"BBBB", 8, 1⟩, ⟨"CCCC", 7, 2⟩]
          }).plate_text = some "AAAA" := by
  refine ⟨by decide, by decide, by decide⟩

/-- `C2` (amended): when fusion is triggered on at least
`fusion_min_samples` readings and the largest greedy Levenshtein group is
strictly smaller than `fusion_min_samples`, the result used is the single
highest-confidence reading across all readings (first one on ties) — but,
because `fuse_readings` returns that reading rather than `None`, the
pipeline's finalization block DOES lock the plate with it (`plate_locked`
becomes true), contrary to the spec's "(no lock)". -/
theorem C2_fusion_no_consensus_locks (cfg : OCRConfig) (r0 : Reading)
    (rest : List Reading)
    (h2 : cfg.fusion_min_samples ≤ (r0 :: rest).length)
    (h3 : largestGroupSize (r0 :: rest) < cfg.fusion_min_samples) :
    (OCREngine.fuse_readings cfg (r0 :: rest) =
      some ⟨(maxConfReading r0 rest).text,
        (maxConfReading r0 rest).confidence⟩) ∧
    maxConfReading r0 rest ∈ r0 :: rest ∧
    (∀ x ∈ r0 :: rest,
      x.confidence ≤ (maxConfReading r0 rest).confidence) ∧
    (∀ t : Track, t.plate_readings = r0 :: rest →
      (plateFinalizeStep cfg t).plate_locked = true ∧
      (plateFinalizeStep cfg t).plate_text =
        some (maxConfReading r0 rest).text) := by
  have hfuse := fuse_readings_no_consensus cfg r0 rest h2 h3
  refine ⟨hfuse, maxConfReading_mem r0 rest, maxConfReading_max r0 rest,
    ?_⟩
  intro t ht
  unfold plateFinalizeStep
  rw [ht, if_pos h2, hfuse]
  exact ⟨rfl, rfl⟩

/-- Witness for `C2` (amended) at a concrete no-consensus reading list. -/
theorem C2_fusion_no_consensus_locks_witness :
    OCREngine.fuse_readings { fusion_min_samples := 3 }
        [⟨"JKLM", 1, 0⟩, ⟨"PQRS", 3, 1⟩, ⟨"WXYZ", 2, 2⟩] =
      some ⟨"PQRS", 3⟩ :=
  (C2_fusion_no_consensus_locks { fusion_min_samples := 3 }
    ⟨"JKLM", 1, 0⟩ [⟨"PQRS", 3, 1⟩, ⟨"WXYZ", 2, 2⟩]
    (by decide) (by decide)).1

theorem pickFirstMax_eq_none_iff (cnt : String → ℕ) (l : List String) :
    pickFirstMax cnt l = none ↔ l = [] := by
  cases l with
  | nil => simp [pickFirstMax]
  | cons k ks =>
      simp only [pickFirstMax]
      cases pickFirstMax cnt ks <;> simp

theorem pickFirstMax_mem (cnt : String → ℕ) (l : List String) :
    ∀ r, pickFirstMax cnt l = some r → r ∈ l := by
  induction l with
  | nil => intro r h; simp [pickFirstMax] at h
  | cons k ks ih =>
      intro r h
      simp only [pickFirstMax] at h
      cases h' : pickFirstMax cnt ks with
      | none =>
          rw [h'] at h
          injection h with h
          simp [← h]
      | some b =>
          rw [h'] at h
          injection h with h
          by_cases hc : cnt b > cnt k
          · rw [if_pos hc] at h
            subst h
            exact List.mem_cons_of_mem _ (ih _ h')
          · rw [if_neg hc] at h
            simp [← h]

theorem pickFirstMax_max (cnt : String → ℕ) (l : List String) :
    ∀ r, pickFirstMax cnt l = some r → ∀ s ∈ l, cnt s ≤ cnt r := by
  induction l with
  | nil => simp
  | cons k ks ih =>
      intro r h s hs
      simp only [pickFirstMax] at h
      cases h' : pickFirstMax cnt ks with
      | none =>
          rw [h'] at h
          injection h with h
          have hks : ks = [] := (pickFirstMax_eq_none_iff cnt ks).mp h'
          subst hks
          rcases List.mem_cons.mp hs with hs | hs
          · rw [hs, ← h]
          · simp at hs
      | some b =>
          rw [h'] at h
          injection h with h
          have hbr : cnt b ≤ cnt r := by
            by_cases hc : cnt b > cnt k
            · rw [if_pos hc] at h; rw [h]
            · rw [if_neg hc] at h; rw [← h]; omega
          have hkr : cnt k ≤ cnt r := by
            by_cases hc : cnt b > cnt k
            · rw [if_pos hc] at h; rw [← h]; omega
            · rw [if_neg hc] at h; rw [← h]
          rcases List.mem_cons.mp hs with hs | hs
          · rw [hs]; exact hkr
          · exact le_trans (ih _ h' s hs) hbr

theorem pickFirstMax_first (cnt : String → ℕ) (l : List String) :
    ∀ r, pickFirstMax cnt l = some r →
      ∀ s ∈ l, cnt s = cnt r → l.indexOf r ≤ l.indexOf s := by
  induction l with
  | nil => simp
  | cons k ks ih =>
      intro r h s hs hcnt
      simp only [pickFirstMax] at h
      cases h' : pickFirstMax cnt ks with
      | none =>
          rw [h'] at h
          injection h with h
          rw [← h, List.indexOf_cons_self]
          exact Nat.zero_le _
      | some b =>
          rw [h'] at h
          injection h with h
          by_cases hc : cnt b > cnt k
          · rw [if_pos hc] at h
            rw [← h] at hcnt ⊢
            by_cases hrk : k = b
            · rw [List.indexOf_cons_eq _ hrk]
              exact Nat.zero_le _
            · rw [List.indexOf_cons_ne _ hrk]
              have hsk : s ≠ k := by
                intro he
                rw [he] at hcnt
                omega
              rcases List.mem_cons.mp hs with hs | hs
              · exact absurd hs hsk
              · rw [List.indexOf_cons_ne _ (fun he => hsk he.symm)]
                exact Nat.succ_le_succ (ih _ h' s hs hcnt)
          · rw [if_neg hc] at h
            rw [← h, List.indexOf_cons_self]
            exact Nat.zero_le _

theorem keysOf_append_singleton (ts : List String) (t : String) :
    keysOf (ts ++ [t]) = insertKey (keysOf ts) t := by
  simp [keysOf, List.foldl_append]

theorem mem_keysOf (ts : List String) : ∀ s, s ∈ keysOf ts ↔ s ∈ ts := by
  induction ts using List.reverseRecOn with
  | nil => simp [keysOf]
  | append_singleton l a ih =>
      intro s
      rw [keysOf_append_singleton]
      unfold insertKey
      by_cases ha : a ∈ keysOf l
      · rw [if_pos ha]
        constructor
        · intro hs; exact List.mem_append_left _ ((ih s).mp hs)
        · intro hs
          rcases List.mem_append.mp hs with hs | hs
          · exact (ih s).mpr hs
          · simp at hs; subst hs; exact ha
      · rw [if_neg ha]
        constructor
        · intro hs
          rcases List.mem_append.mp hs with hs | hs
          · exact List.mem_append_left _ ((ih s).mp hs)
          · exact List.mem_append_right _ hs
        · intro hs
          rcases List.mem_append.mp hs with hs | hs
          · exact List.mem_append_left _ ((ih s).mpr hs)
          · exact List.mem_append_right _ hs

theorem keysOf_order (ts : List String) :
    ∀ a b, a ∈ keysOf ts → b ∈ keysOf ts →
      (keysOf ts).indexOf a ≤ (keysOf ts).indexOf b →
      ts.indexOf a ≤ ts.indexOf b := by
  induction ts using List.reverseRecOn with
  | nil => simp [keysOf]
  | append_singleton l t ih =>
      intro a b ha hb hab
      rw [keysOf_append_singleton] at ha hb hab
      unfold insertKey at ha hb hab
      by_cases ht : t ∈ keysOf l
      · rw [if_pos ht] at ha hb hab
        have ha' : a ∈ l := (mem_keysOf l a).mp ha
        have hb' : b ∈ l := (mem_keysOf l b).mp hb
        rw [List.indexOf_append_of_mem ha', List.indexOf_append_of_mem hb']
        exact ih a b ha hb hab
      · rw [if_neg ht] at ha hb hab
        have htl : t ∉ l := fun hc => ht ((mem_keysOf l t).mpr hc)
        rcases List.mem_append.mp ha with ha | ha
        · have ha' : a ∈ l := (mem_keysOf l a).mp ha
          rw [List.indexOf_append_of_mem ha']
          rcases List.mem_append.mp hb with hb | hb
          · have hb' : b ∈ l := (mem_keysOf l b).mp hb
            rw [List.indexOf_append_of_mem hb']
            rw [List.indexOf_append_of_mem ha,
              List.indexOf_append_of_mem hb] at hab
            exact ih a b ha hb hab
          · simp only [List.mem_singleton] at hb
            subst hb
            rw [List.indexOf_append_of_not_mem htl]
            have := List.indexOf_lt_length.mpr ha'
            omega
        · simp only [List.mem_singleton] at ha
          subst ha
          rcases List.mem_append.mp hb with hb | hb
          · exfalso
            have hb' : b ∈ keysOf l := hb
            rw [List.indexOf_append_of_not_mem ht,
              List.indexOf_append_of_mem hb'] at hab
            have h1 := List.indexOf_lt_length.mpr hb'
            simp only [List.indexOf_cons_self, Nat.add_zero] at hab
            omega
          · simp only [List.mem_singleton] at hb
            subst hb
            exact le_refl _

theorem keysOf_ne_nil (x : String) (xs : List String) :
    keysOf (x :: xs) ≠ [] := by
  intro h
  have : x ∈ keysOf (x :: xs) := (mem_keysOf _ x).mpr (by simp)
  rw [h] at this
  simp at this

/-- Full specification-level characterization of
`Counter(texts).most_common(1)[0][0]`: the result occurs in `texts`, its
multiplicity is maximal, and among the texts of maximal multiplicity it is
the one appearing first. -/
theorem mostCommonText_spec (texts : List String) (mc : String)
    (h : mostCommonText texts = some mc) :
    mc ∈ texts ∧
    (∀ s ∈ texts, texts.count s ≤ texts.count mc) ∧
    (∀ s ∈ texts, texts.count s = texts.count mc →
      texts.indexOf mc ≤ texts.indexOf s) := by
  unfold mostCommonText at h
  have hmem : mc ∈ keysOf texts := pickFirstMax_mem _ _ _ h
  have hmem' : mc ∈ texts := (mem_keysOf texts mc).mp hmem
  refine ⟨hmem', ?_, ?_⟩
  · intro s hs
    exact pickFirstMax_max _ _ _ h s ((mem_keysOf texts s).mpr hs)
  · intro s hs hcnt
    have hs' : s ∈ keysOf texts := (mem_keysOf texts s).mpr hs
    exact keysOf_order texts mc s hmem hs'
      (pickFirstMax_first _ _ _ h s hs' hcnt)

theorem mostCommonText_isSome (x : String) (xs : List String) :
    (mostCommonText (x :: xs)).isSome := by
  unfold mostCommonText
  cases hk : keysOf (x :: xs) with
  | nil => exact absurd hk (keysOf_ne_nil x xs)
  | cons k ks =>
      simp only [pickFirstMax]
      cases pickFirstMax (fun s => (x :: xs).count s) ks <;> simp

/-- `C6`: when fusion finds a largest Levenshtein-distance-at-most-2 group
of size at least `fusion_min_samples`, the fused text is the most frequent
string in that group — ties in frequency broken by first-appearance order
(the group list preserves the order of the reading sequence, so first
appearance in the group is first appearance among those readings) — the
fused confidence is the mean of the confidences of exactly that string's
occurrences within the group, and the pipeline's finalization block locks
the plate on the track.  The embedding is a pure function of the reading
sequence, so the whole fusion result is deterministic by construction. -/
theorem C6_fusion_consensus (cfg : OCRConfig) (readings : List Reading)
    (h2 : cfg.fusion_min_samples ≤ readings.length)
    (g : Reading × List Reading) (hg : largestGroup readings = some g)
    (h3 : cfg.fusion_min_samples ≤ groupSize g) :
    ∃ mc,
      mostCommonText ((groupMembers g).map Reading.text) = some mc ∧
      OCREngine.fuse_readings cfg readings =
        some ⟨mc,
          (((groupMembers g).filter (fun r => r.text = mc)).map
            Reading.confidence).sum /
          (((groupMembers g).filter (fun r => r.text = mc)).map
            Reading.confidence).length⟩ ∧
      mc ∈ (groupMembers g).map Reading.text ∧
      (∀ s ∈ (groupMembers g).map Reading.text,
        ((groupMembers g).map Reading.text).count s ≤
          ((groupMembers g).map Reading.text).count mc) ∧
      (∀ s ∈ (groupMembers g).map Reading.text,
        ((groupMembers g).map Reading.text).count s =
          ((groupMembers g).map Reading.text).count mc →
        ((groupMembers g).map Reading.text).indexOf mc ≤
          ((groupMembers g).map Reading.text).indexOf s) ∧
      (∀ t : Track, t.plate_readings = readings →
        (plateFinalizeStep cfg t).plate_locked = true ∧
        (plateFinalizeStep cfg t).plate_text = some mc) := by
  cases readings with
  | nil =>
      exact absurd hg (by simp [largestGroup, groupsOf, maxByLen])
  | cons r0 rest =>
      obtain ⟨mc, hmc⟩ := Option.isSome_iff_exists.mp
        (mostCommonText_isSome g.1.text ((g.2).map Reading.text))
      have hmc' : mostCommonText ((groupMembers g).map Reading.text) =
          some mc := by
        simpa [groupMembers] using hmc
      have hspec := mostCommonText_spec _ _ hmc'
      have hfuse : OCREngine.fuse_readings cfg (r0 :: rest) =
          some ⟨mc,
            (((groupMembers g).filter (fun r => r.text = mc)).map
              Reading.confidence).sum /
            (((groupMembers g).filter (fun r => r.text = mc)).map
              Reading.confidence).length⟩ := by
        simp only [OCREngine.fuse_readings]
        rw [if_neg (by omega), hg]
        dsimp only
        rw [if_neg (by omega), hmc']
      refine ⟨mc, hmc', hfuse, hspec.1, hspec.2.1, hspec.2.2, ?_⟩
      intro t ht
      unfold plateFinalizeStep
      rw [ht, if_pos h2, hfuse]
      exact ⟨rfl, rfl⟩

/-- Witness for `C6` on the spec's fusion scenario (three close readings,
`fusion_min_samples = 3`): the plate is locked to `"ABC1234"`. -/
theorem C6_fusion_consensus_witness :
    (plateFinalizeStep { fusion_min_samples := 3 }
        { track_id := 1, camera_id := 1, state := .confirmed,
          vehicle_type := .car, first_seen := 0, last_seen := 0,
          bbox := (0, 0, 1, 1), confidence := 1,
          plate_readings :=
            [⟨"ABC1234", 9, 0⟩, ⟨"ABC1234", 7, 1⟩, ⟨"ABC1Z34", 5, 2⟩]
          }).plate_locked = true ∧
    (plateFinalizeStep { fusion_min_samples := 3 }
        { track_id := 1, camera_id := 1, state := .confirmed,
          vehicle_type := .car, first_seen := 0, last_seen := 0,
          bbox := (0, 0, 1, 1), confidence := 1,
          plate_readings :=
            [⟨"ABC1234", 9, 0⟩, ⟨"ABC1234", 7, 1⟩, ⟨"ABC1Z34", 5, 2⟩]
          }).plate_text = some "ABC1234" := by
  obtain ⟨mc, hmc, _, _, _, _, hlock⟩ :=
    C6_fusion_consensus { fusion_min_samples := 3 }
      [⟨"ABC1234", 9, 0⟩, ⟨"ABC1234", 7, 1⟩, ⟨"ABC1Z34", 5, 2⟩]
      (by decide)
      (⟨"ABC1234", 9, 0⟩, [⟨"ABC1234", 7, 1⟩, ⟨"ABC1Z34", 5, 2⟩])
      (by decide) (by decide)
  have hmceq : mc = "ABC1234" := by
    have h' : mostCommonText ((groupMembers
        (⟨"ABC1234", 9, 0⟩, [⟨"ABC1234", 7, 1⟩,
          (⟨"ABC1Z34", 5, 2⟩ : Reading)])).map Reading.text) =
        some "ABC1234" := by decide
    rw [hmc] at h'
    injection h'
  rw [hmceq] at hlock
  exact hlock _ rfl

/-- `C8`: `can_process(track_id)` returns true iff the OCR subsystem is
enabled and loaded, the global active-OCR count is strictly below
`max_concurrent`, and the track has no recorded last-OCR time or at least
`throttle_frames / 20` seconds have elapsed since it.  The check is a pure
function of the engine state — it mutates nothing — and at the
`max_concurrent` cap an admission attempt returns false and
`recognize_plate` leaves the engine state completely unchanged. -/
theorem C8_can_process_characterization (cfg : OCRConfig)
    (s : OCREngineState) (track_id : ℕ) (now : ℚ) :
    (OCREngine.can_process cfg s track_id now = true ↔
      s.enabled = true ∧ s.is_loaded = true ∧
      s.active_ocr_count < cfg.max_concurrent ∧
      (s.last_ocr_time track_id = none ∨
        ∃ t, s.last_ocr_time track_id = some t ∧
          cfg.throttle_frames / 20 ≤ now - t)) ∧
    (s.active_ocr_count = cfg.max_concurrent →
      OCREngine.can_process cfg s track_id now = false ∧
      ∀ oracle, OCREngine.recognize_plate cfg s track_id now oracle =
        (none, s)) := by
  have hchar : OCREngine.can_process cfg s track_id now = true ↔
      s.enabled = true ∧ s.is_loaded = true ∧
      s.active_ocr_count < cfg.max_concurrent ∧
      (s.last_ocr_time track_id = none ∨
        ∃ t, s.last_ocr_time track_id = some t ∧
          cfg.throttle_frames / 20 ≤ now - t) := by
    unfold OCREngine.can_process
    by_cases h1 : ¬s.enabled = true ∨ ¬s.is_loaded = true
    · rw [if_pos h1]
      simp only [Bool.false_eq_true, false_iff]
      intro hc
      rcases h1 with h1 | h1 <;> exact h1 (by tauto)
    · rw [if_neg h1]
      push_neg at h1
      by_cases h2 : s.active_ocr_count ≥ cfg.max_concurrent
      · rw [if_pos h2]
        simp only [Bool.false_eq_true, false_iff]
        intro hc
        omega
      · rw [if_neg h2]
        push_neg at h2
        cases hlast : s.last_ocr_time track_id with
        | none => simp [h1.1, h1.2, h2]
        | some t =>
            dsimp only
            by_cases h3 : now - t < cfg.throttle_frames / 20
            · rw [if_pos h3]
              simp only [Bool.false_eq_true, false_iff]
              rintro ⟨-, -, -, hor | ⟨t', ht', hle⟩⟩
              · cases hor
              · injection ht' with ht'
                rw [← ht'] at hle
                linarith
            · rw [if_neg h3]
              push_neg at h3
              simp only [true_iff]
              exact ⟨h1.1, h1.2, h2, Or.inr ⟨t, rfl, h3⟩⟩
  refine ⟨hchar, ?_⟩
  intro hcap
  have hfalse : OCREngine.can_process cfg s track_id now = false := by
    rcases hb : OCREngine.can_process cfg s track_id now with _ | _
    · rfl
    · exact absurd (hchar.mp hb).2.2.1 (by omega)
  refine ⟨hfalse, ?_⟩
  intro oracle
  unfold OCREngine.recognize_plate
  rw [if_pos (by rw [hfalse]; simp)]

/-- Witness for `C8`: a concrete engine state at the concurrency cap is
refused admission with no state change. -/
theorem C8_can_process_characterization_witness :
    OCREngine.can_process { max_concurrent := 2 }
      { enabled := true, is_loaded := true, last_ocr_time := fun _ => none,
        active_ocr_count := 2, total_ocr_calls := 0, successful_reads := 0,
        failed_reads := 0 } 1 0 = false :=
  ((C8_can_process_characterization { max_concurrent := 2 }
    { enabled := true, is_loaded := true, last_ocr_time := fun _ => none,
      active_ocr_count := 2, total_ocr_calls := 0, successful_reads := 0,
      failed_reads := 0 } 1 0).2 rfl).1

/-! ## Tracker association (`TrackingEngine._match` in `tracking/engine.py`) -/

/-- The IoU cells strictly above the threshold, enumerated in row-major
order (`for i in range(len(track_ids)): for j in range(len(detections))`). -/
def cellsAbove (nT nD : ℕ) (M : ℕ → ℕ → ℚ) (thr : ℚ) : List (ℕ × ℕ) :=
  (List.range nT).flatMap fun i =>
    ((List.range nD).filter fun j => thr < M i j).map fun j => (i, j)

/-- Sort key of the code: `matches.sort(key=lambda x: x[2], reverse=True)`
is a stable sort by descending IoU, realized here by insertion sort with
"a's IoU at least b's". -/
def iouGE (M : ℕ → ℕ → ℚ) (a b : ℕ × ℕ) : Prop := M b.1 b.2 ≤ M a.1 a.2

instance (M : ℕ → ℕ → ℚ) : DecidableRel (iouGE M) := by
  unfold iouGE; infer_instance

/-- The order described by the specification: by IoU descending, with
equal-IoU cells kept in enumeration (row-major) order. -/
def lexGE (M : ℕ → ℕ → ℚ) (a b : ℕ × ℕ) : Prop :=
  M b.1 b.2 < M a.1 a.2 ∨
    (M a.1 a.2 = M b.1 b.2 ∧ (a.1 < b.1 ∨ (a.1 = b.1 ∧ a.2 ≤ b.2)))

instance (M : ℕ → ℕ → ℚ) : DecidableRel (lexGE M) := by
  unfold lexGE; infer_instance

/-- Strict row-major (enumeration) order on cells. -/
def rankLT (a b : ℕ × ℕ) : Prop := a.1 < b.1 ∨ (a.1 = b.1 ∧ a.2 < b.2)

/-- The greedy selection: walk the sorted cell list and accept a cell
exactly when its row and its column are both still unconsumed. -/
def greedyAccept (acc : List (ℕ × ℕ)) (c : ℕ × ℕ) : List (ℕ × ℕ) :=
  if c.1 ∉ acc.map Prod.fst ∧ c.2 ∉ acc.map Prod.snd then acc ++ [c]
  else acc

/-- Greedy matching over a sorted cell list. -/
def greedyMatch (cs : List (ℕ × ℕ)) : List (ℕ × ℕ) :=
  cs.foldl greedyAccept []

/-- `TrackingEngine._match` on row/column indices: the early return for no
tracks or no detections, then cell enumeration, the stable descending sort,
greedy selection, and the unmatched remainders.  (The code consumes rows via
their unique dict-key track ids; rows here are the positions of those ids,
and the Python sets of leftover ids/indices are returned in canonical
ascending order.)  Returns `(matched, unmatched_dets, unmatched_tracks)`. -/
def TrackingEngine.matchIdx (nT nD : ℕ) (M : ℕ → ℕ → ℚ) (thr : ℚ) :
    List (ℕ × ℕ) × List ℕ × List ℕ :=
  if nT = 0 ∨ nD = 0 then ([], List.range nD, List.range nT)
  else
    let matched :=
      greedyMatch (List.insertionSort (iouGE M) (cellsAbove nT nD M thr))
    (matched,
      (List.range nD).filter fun j => j ∉ matched.map Prod.snd,
      (List.range nT).filter fun i => i ∉ matched.map Prod.fst)

/-- The association procedure exactly as worded by the specification:
enumerate the above-threshold cells in row-major order, sort them by IoU
descending with equal-IoU cells kept in enumeration order (a total order,
realized by sorting with `lexGE`), greedily accept cells whose row and
column are free, and return everything else unmatched. -/
def specMatchIdx (nT nD : ℕ) (M : ℕ → ℕ → ℚ) (thr : ℚ) :
    List (ℕ × ℕ) × List ℕ × List ℕ :=
  if nT = 0 ∨ nD = 0 then ([], List.range nD, List.range nT)
  else
    let matched :=
      greedyMatch (List.insertionSort (lexGE M) (cellsAbove nT nD M thr))
    (matched,
      (List.range nD).filter fun j => j ∉ matched.map Prod.snd,
      (List.range nT).filter fun i => i ∉ matched.map Prod.fst)

theorem orderedInsert_iouGE_eq_lexGE (M : ℕ → ℕ → ℚ) (a : ℕ × ℕ) :
    ∀ s : List (ℕ × ℕ), (∀ b ∈ s, rankLT a b) →
      s.orderedInsert (iouGE M) a = s.orderedInsert (lexGE M) a := by
  intro s
  induction s with
  | nil => intro _; rfl
  | cons y ys ih =>
      intro hbelow
      have hy : rankLT a y := hbelow y (by simp)
      have hiff : iouGE M a y ↔ lexGE M a y := by
        unfold iouGE lexGE rankLT at *
        constructor
        · intro hle
          rcases lt_or_eq_of_le hle with hlt | heq
          · exact Or.inl hlt
          · refine Or.inr ⟨heq.symm, ?_⟩
            rcases hy with hy | hy
            · exact Or.inl hy
            · exact Or.inr ⟨hy.1, le_of_lt hy.2⟩
        · intro hlex
          rcases hlex with hlt | ⟨heq, -⟩
          · exact le_of_lt hlt
          · exact le_of_eq heq.symm
      simp only [List.orderedInsert]
      by_cases hc : iouGE M a y
      · rw [if_pos hc, if_pos (hiff.mp hc)]
      · rw [if_neg hc, if_neg (fun hl => hc (hiff.mpr hl))]
        rw [ih (fun b hb => hbelow b (by simp [hb]))]

theorem insertionSort_iouGE_eq_lexGE (M : ℕ → ℕ → ℚ) :
    ∀ l : List (ℕ × ℕ), l.Pairwise rankLT →
      l.insertionSort (iouGE M) = l.insertionSort (lexGE M) := by
  intro l
  induction l with
  | nil => intro _; rfl
  | cons a l ih =>
      intro hp
      have hp' := List.pairwise_cons.mp hp
      simp only [List.insertionSort]
      rw [ih hp'.2]
      apply orderedInsert_iouGE_eq_lexGE
      intro b hb
      exact hp'.1 b ((List.mem_insertionSort _).mp hb)

theorem cellsAbove_pairwise_rankLT (nT nD : ℕ) (M : ℕ → ℕ → ℚ) (thr : ℚ) :
    (cellsAbove nT nD M thr).Pairwise rankLT := by
  unfold cellsAbove
  rw [List.pairwise_flatMap]
  constructor
  · intro i _
    rw [List.pairwise_map]
    have : ((List.range nD).filter fun j =>
        decide (thr < M i j)).Pairwise (· < ·) :=
      List.Pairwise.filter _ (List.pairwise_lt_range nD)
    refine this.imp ?_
    intro a b hab
    exact Or.inr ⟨rfl, hab⟩
  · have : (List.range nT).Pairwise (· < ·) := List.pairwise_lt_range nT
    refine this.imp ?_
    intro i1 i2 h12 x hx y hy
    simp only [List.mem_map] at hx hy
    obtain ⟨j1, -, hj1⟩ := hx
    obtain ⟨j2, -, hj2⟩ := hy
    rw [← hj1, ← hj2]
    exact Or.inl h12

/-- `C5`: the tracker's association step produces exactly the matching of
the specification's description — enumerate all above-threshold cells in
row-major order, sort by IoU descending with equal-IoU cells kept in
enumeration order, greedily accept cells whose row and column are free —
and returns all other tracks and detections unmatched. -/
theorem C5_match_equals_spec (nT nD : ℕ) (M : ℕ → ℕ → ℚ) (thr : ℚ) :
    TrackingEngine.matchIdx nT nD M thr = specMatchIdx nT nD M thr := by
  unfold TrackingEngine.matchIdx specMatchIdx
  rw [insertionSort_iouGE_eq_lexGE M _ (cellsAbove_pairwise_rankLT nT nD M thr)]

/-! ## Entry/exit FSM (`events/engine.py`) -/

/-- The durable event kinds (`'entry'` / `'exit'` in the event dict). -/
inductive EventKind where
  | entry
  | exit
deriving DecidableEq, Repr

/-- The event dict built by `_create_entry_event` / `_create_exit_event`.
The `metadata` sub-dict is flattened into `meta_color` and `meta_bbox`. -/
structure FSMEvent where
  kind : EventKind
  camera_id : ℕ
  track_id : ℕ
  vehicle_type : VehicleType
  plate_text : Option String
  plate_confidence : Option ℚ
  timestamp : ℚ
  confidence : ℚ
  entry_time : Option ℚ := none
  exit_time : Option ℚ := none
  duration : Option ℚ := none
  meta_color : Option String := none
  meta_bbox : Bbox := (0, 0, 0, 0)
deriving DecidableEq, Repr

/-- The events section of the configuration (`EventConfig` in
`core/config.py`). -/
structure EventConfig where
  entry_y_threshold : ℚ := 6/10
  exit_y_threshold : ℚ := 9/10
  min_dwell_time : ℚ := 1
  dedup_window : ℚ := 60
  require_plate_for_entry : Bool := false
  require_plate_for_exit : Bool := true
deriving DecidableEq, Repr

/-- Mutable state of `EventEngine`: the per-track FSM positions
(`track_states`, a dict read with default `OUTSIDE`), the per-camera dedup
cache `recent_plates : plate → last event time`, and the counters. -/
structure EventEngineState where
  camera_id : ℕ
  track_states : ℕ → VehicleState
  recent_plates : String → Option ℚ
  total_entries : ℕ
  total_exits : ℕ

/-- A fresh per-camera engine (`EventEngine.__init__`). -/
def EventEngine.init (camera_id : ℕ) : EventEngineState :=
  { camera_id := camera_id
    track_states := fun _ => .outside
    recent_plates := fun _ => none
    total_entries := 0
    total_exits := 0 }

/-- `EventEngine._is_duplicate_entry`: the current plate text (if any)
appears in the dedup cache with a timestamp less than `dedup_window`
seconds old. -/
def EventEngine.is_duplicate_entry (cfg : EventConfig)
    (s : EventEngineState) (track : Track) (now : ℚ) : Bool :=
  match track.plate_text with
  | none => false
  | some p =>
      match s.recent_plates p with
      | some last_time =>
          if now - last_time < cfg.dedup_window then true else false
      | none => false

/-- `EventEngine._is_duplicate_exit` delegates to the entry check. -/
def EventEngine.is_duplicate_exit (cfg : EventConfig)
    (s : EventEngineState) (track : Track) (now : ℚ) : Bool :=
  EventEngine.is_duplicate_entry cfg s track now

/-- Insert/refresh the emitted event's plate in the dedup cache at `now`
(the trailing block of both event constructors). -/
def refreshPlate (s : EventEngineState) (plate : Option String) (now : ℚ) :
    EventEngineState :=
  match plate with
  | some p =>
      { s with recent_plates := fun q =>
          if q = p then some now else s.recent_plates q }
  | none => s

/-- `EventEngine._create_entry_event`. -/
def EventEngine.create_entry_event (s : EventEngineState) (track : Track)
    (now : ℚ) : FSMEvent × EventEngineState :=
  ({ kind := .entry
     camera_id := s.camera_id
     track_id := track.track_id
     vehicle_type := track.vehicle_type
     plate_text := track.plate_text
     plate_confidence := track.plate_confidence
     timestamp := now
     confidence := track.confidence
     meta_color := track.color
     meta_bbox := track.bbox },
   refreshPlate s track.plate_text now)

/-- `EventEngine._create_exit_event`. -/
def EventEngine.create_exit_event (s : EventEngineState) (track : Track)
    (now : ℚ) : FSMEvent × EventEngineState :=
  ({ kind := .exit
     camera_id := s.camera_id
     track_id := track.track_id
     vehicle_type := track.vehicle_type
     plate_text := track.plate_text
     plate_confidence := track.plate_confidence
     timestamp := now
     confidence := track.confidence
     entry_time := some track.first_seen
     exit_time := some now
     duration := some (now - track.first_seen)
     meta_color := track.color
     meta_bbox := track.bbox },
   refreshPlate s track.plate_text now)

/-- The normalized y of the bbox center for a frame of height `H`:
`(y1 + y2) / 2 / H`, with the code's guard for `H ≤ 0`. -/
def normY (track : Track) (frame_height : ℚ) : ℚ :=
  if frame_height > 0 then
    ((track.bbox.2.1 + track.bbox.2.2.2) / 2) / frame_height
  else 0

/-- The state-machine branch of `EventEngine.process_track`: given the
current FSM state of the track, decide the event to emit (if any), the new
state, and the engine state after any cache refresh and counter bump. -/
def EventEngine.transition (cfg : EventConfig) (s : EventEngineState)
    (track : Track) (normalized_y : ℚ) (now : ℚ) :
    Option FSMEvent × VehicleState × EventEngineState :=
  let current_state := s.track_states track.track_id
  match current_state with
  | .outside =>
      if normalized_y > cfg.entry_y_threshold then
        (none, .approaching, s)
      else (none, current_state, s)
  | .approaching =>
      let dwell_time := now - track.first_seen
      if dwell_time ≥ cfg.min_dwell_time then
        if cfg.require_plate_for_entry ∧ ¬track.plate_locked then
          (none, current_state, s)
        else if ¬EventEngine.is_duplicate_entry cfg s track now then
          let es := EventEngine.create_entry_event s track now
          (some es.1, .inside,
            { es.2 with total_entries := es.2.total_entries + 1 })
        else (none, current_state, s)
      else (none, current_state, s)
  | .inside =>
      if normalized_y > cfg.exit_y_threshold then
        (none, .exiting, s)
      else (none, current_state, s)
  | .exiting =>
      if track.time_since_update > 5 then
        if cfg.require_plate_for_exit ∧ ¬track.plate_locked then
          (none, current_state, s)
        else if ¬EventEngine.is_duplicate_exit cfg s track now then
          let es := EventEngine.create_exit_event s track now
          (some es.1, .logged,
            { es.2 with total_exits := es.2.total_exits + 1 })
        else (none, current_state, s)
      else (none, current_state, s)
  | .logged => (none, current_state, s)

/-- `EventEngine.process_track`: the per-track FSM step.  Returns the
emitted event (if any), the updated engine state, and the track with its
`vehicle_state` updated (the state write happens only on change, as in the
code; writing an unchanged value would be the same state).  The several
`datetime.now()` reads inside one call are modelled as the single instant
`now`. -/
def EventEngine.process_track (cfg : EventConfig) (s : EventEngineState)
    (track : Track) (frame_height : ℚ) (now : ℚ) :
    Option FSMEvent × EventEngineState × Track :=
  let current_state := s.track_states track.track_id
  let step := EventEngine.transition cfg s track (normY track frame_height) now
  let new_state := step.2.1
  let s1 := step.2.2
  if new_state ≠ current_state then
    ( step.1,
      { s1 with track_states := fun k =>
          if k = track.track_id then new_state else s1.track_states k },
      { track with vehicle_state := new_state } )
  else (step.1, s1, track)

/-- `EventEngine.cleanup_old_entries`: drop cache entries older than
`2 × dedup_window`. -/
def EventEngine.cleanup_old_entries (cfg : EventConfig)
    (s : EventEngineState) (now : ℚ) : EventEngineState :=
  { s with recent_plates := fun p =>
      match s.recent_plates p with
      | some ts => if ts < now - cfg.dedup_window * 2 then none else some ts
      | none => none }

/-- A unit of work offered to one camera's event engine: a per-track FSM
step at a wall-clock instant, or the periodic dedup-cache cleanup. -/
inductive EngineStep where
  | proc (now : ℚ) (track : Track) (frame_height : ℚ)
  | cleanup (now : ℚ)

/-- The wall-clock time of a step. -/
def EngineStep.time : EngineStep → ℚ
  | .proc now _ _ => now
  | .cleanup now => now

/-- Run one step of the engine. -/
def runStep (cfg : EventConfig) (s : EventEngineState) :
    EngineStep → EventEngineState × Option FSMEvent
  | .proc now track H =>
      let r := EventEngine.process_track cfg s track H now
      (r.2.1, r.1)
  | .cleanup now => (EventEngine.cleanup_old_entries cfg s now, none)

/-- Run a sequence of engine steps, collecting the emitted events in
order. -/
def runTrace (cfg : EventConfig) (s : EventEngineState) :
    List EngineStep → EventEngineState × List FSMEvent
  | [] => (s, [])
  | st :: rest =>
      let r1 := runStep cfg s st
      let r2 := runTrace cfg r1.1 rest
      (r2.1, (r1.2.elim [] fun e => [e]) ++ r2.2)

/-! ## Durable writer producer side (`database/manager.py`) -/

/-- A camera registry row as enqueued by `insert_camera`. -/
structure CameraRow where
  id : ℕ
  name : String
  source : String
  location : String := ""
  status : String := "active"
deriving DecidableEq, Repr

/-- A track row as enqueued by `insert_track`. -/
structure TrackRow where
  camera_id : ℕ
  track_id : ℕ
  vehicle_type : VehicleType
  first_seen : ℚ
  last_seen : ℚ
  confidence : ℚ
  color : Option String := none
deriving DecidableEq, Repr

/-- A queued `{op, payload}` record of the write queue. -/
inductive WriteOp where
  | insert_event (e : FSMEvent)
  | insert_track (t : TrackRow)
  | insert_camera (c : CameraRow)
deriving DecidableEq, Repr

/-- The producer-visible state of `DatabaseManager`: the bounded write
queue (`Queue(maxsize=1000)`) and the exposed statistics counters. -/
structure DBState where
  write_queue : List WriteOp
  total_writes : ℕ
  failed_writes : ℕ
deriving DecidableEq, Repr

/-- The write queue capacity fixed in `DatabaseManager.__init__`. -/
def writeQueueMaxsize : ℕ := 1000

/-- `DatabaseManager.insert_event`: `put_nowait` onto the bounded queue;
on `queue.Full` the record is dropped with only a log message.  The
function is total (no blocking is modelled or possible). -/
def DatabaseManager.insert_event (s : DBState) (e : FSMEvent) : DBState :=
  if s.write_queue.length ≥ writeQueueMaxsize then s
  else { s with write_queue := s.write_queue ++ [WriteOp.insert_event e] }

/-- `DatabaseManager.insert_track`: same non-blocking discipline. -/
def DatabaseManager.insert_track (s : DBState) (t : TrackRow) : DBState :=
  if s.write_queue.length ≥ writeQueueMaxsize then s
  else { s with write_queue := s.write_queue ++ [WriteOp.insert_track t] }

/-- `DatabaseManager.insert_camera`: same non-blocking discipline. -/
def DatabaseManager.insert_camera (s : DBState) (c : CameraRow) : DBState :=
  if s.write_queue.length ≥ writeQueueMaxsize then s
  else { s with write_queue := s.write_queue ++ [WriteOp.insert_camera c] }

/-- `C9` (counterexample): with the 1000-slot write queue already full,
`insert_event` drops the record and returns the state COMPLETELY unchanged —
in particular no counter of any kind records the drop (the code only logs a
warning; `total_writes`/`failed_writes`, the only exposed counters, are
untouched), contradicting the claim that the drop is counted in an exposed
counter. -/
theorem C9_counterexample :
    DatabaseManager.insert_event
      { write_queue :=
          List.replicate 1000 (WriteOp.insert_camera ⟨1, "cam", "0", "", "active"⟩)
        total_writes := 0
        failed_writes := 0 }
      { kind := .entry, camera_id := 1, track_id := 1,
        vehicle_type := .car, plate_text := none, plate_confidence := none,
        timestamp := 0, confidence := 1 } =
    { write_queue :=
        List.replicate 1000 (WriteOp.insert_camera ⟨1, "cam", "0", "", "active"⟩)
      total_writes := 0
      failed_writes := 0 } := by
  unfold DatabaseManager.insert_event
  rw [if_pos (by rw [List.length_replicate]; decide)]

/-- `C9` (amended): the producer-side enqueue operations never block (they
are total functions); when the bounded queue (capacity 1000) is full the new
record is dropped with the queue contents and ALL exposed counters left
unchanged — the drop is logged but NOT counted — and otherwise the record is
appended with the counters unchanged. -/
theorem C9_enqueue_nonblocking_drop_uncounted (s : DBState) (e : FSMEvent)
    (t : TrackRow) (c : CameraRow) :
    (writeQueueMaxsize ≤ s.write_queue.length →
      DatabaseManager.insert_event s e = s ∧
      DatabaseManager.insert_track s t = s ∧
      DatabaseManager.insert_camera s c = s) ∧
    (s.write_queue.length < writeQueueMaxsize →
      DatabaseManager.insert_event s e =
        { s with write_queue := s.write_queue ++ [WriteOp.insert_event e] } ∧
      DatabaseManager.insert_track s t =
        { s with write_queue := s.write_queue ++ [WriteOp.insert_track t] } ∧
      DatabaseManager.insert_camera s c =
        { s with write_queue :=
            s.write_queue ++ [WriteOp.insert_camera c] }) := by
  unfold DatabaseManager.insert_event DatabaseManager.insert_track
    DatabaseManager.insert_camera
  constructor
  · intro hfull
    rw [if_pos hfull, if_pos hfull, if_pos hfull]
    exact ⟨rfl, rfl, rfl⟩
  · intro hroom
    rw [if_neg (by omega), if_neg (by omega), if_neg (by omega)]
    exact ⟨rfl, rfl, rfl⟩

/-- Witness for `C9` (amended) at a concrete full queue and a concrete
non-full queue. -/
theorem C9_enqueue_nonblocking_drop_uncounted_witness :
    DatabaseManager.insert_event
      { write_queue :=
          List.replicate 1000 (WriteOp.insert_camera ⟨2, "c2", "1", "", "active"⟩)
        total_writes := 5
        failed_writes := 2 }
      { kind := .exit, camera_id := 2, track_id := 3,
        vehicle_type := .bus, plate_text := none, plate_confidence := none,
        timestamp := 7, confidence := 1 } =
    { write_queue :=
        List.replicate 1000 (WriteOp.insert_camera ⟨2, "c2", "1", "", "active"⟩)
      total_writes := 5
      failed_writes := 2 } :=
  ((C9_enqueue_nonblocking_drop_uncounted
    { write_queue :=
        List.replicate 1000 (WriteOp.insert_camera ⟨2, "c2", "1", "", "active"⟩)
      total_writes := 5
      failed_writes := 2 }
    { kind := .exit, camera_id := 2, track_id := 3,
      vehicle_type := .bus, plate_text := none, plate_confidence := none,
      timestamp := 7, confidence := 1 }
    ⟨2, 3, .bus, 0, 1, 1, none⟩ ⟨2, "c2", "1", "", "active"⟩).1
    (by rw [List.length_replicate]; decide)).1

/-! ### Dedup-cache lemmas for the FSM -/

theorem refreshPlate_self (s : EventEngineState) (p : String) (now : ℚ) :
    (refreshPlate s (some p) now).recent_plates p = some now := by
  simp [refreshPlate]

theorem refreshPlate_other (s : EventEngineState) (plate : Option String)
    (now : ℚ) (q : String) (h : plate ≠ some q) :
    (refreshPlate s plate now).recent_plates q = s.recent_plates q := by
  unfold refreshPlate
  cases plate with
  | none => rfl
  | some p =>
      have : q ≠ p := fun he => h (by rw [he])
      simp [this]

theorem refreshPlate_cases (s : EventEngineState) (plate : Option String)
    (now : ℚ) (p : String) :
    (refreshPlate s plate now).recent_plates p = s.recent_plates p ∨
    (refreshPlate s plate now).recent_plates p = some now := by
  unfold refreshPlate
  cases plate with
  | none => exact Or.inl rfl
  | some q =>
      by_cases h : p = q
      · right; simp [h]
      · left; simp [h]

theorem transition_emit (cfg : EventConfig) (s : EventEngineState)
    (track : Track) (ny now : ℚ) (e : FSMEvent) (ns : VehicleState)
    (s' : EventEngineState)
    (h : EventEngine.transition cfg s track ny now = (some e, ns, s')) :
    e.timestamp = now ∧ e.plate_text = track.plate_text ∧
    EventEngine.is_duplicate_entry cfg s track now = false ∧
    s'.recent_plates = (refreshPlate s track.plate_text now).recent_plates := by
  unfold EventEngine.transition at h
  cases hst : s.track_states track.track_id <;> rw [hst] at h <;>
    dsimp only at h
  case outside => split_ifs at h <;> cases h
  case approaching =>
      split_ifs at h with h1 h2 h3
      · cases h
      · cases h
      · cases h
        refine ⟨rfl, rfl, ?_, rfl⟩
        simpa using h3
      · cases h
  case inside => split_ifs at h <;> cases h
  case exiting =>
      split_ifs at h with h1 h2 h3
      · cases h
      · cases h
      · cases h
        refine ⟨rfl, rfl, ?_, rfl⟩
        simpa [EventEngine.is_duplicate_exit] using h3
      · cases h
  case logged => cases h

theorem transition_none (cfg : EventConfig) (s : EventEngineState)
    (track : Track) (ny now : ℚ) (ns : VehicleState)
    (s' : EventEngineState)
    (h : EventEngine.transition cfg s track ny now = (none, ns, s')) :
    s'.recent_plates = s.recent_plates := by
  unfold EventEngine.transition at h
  cases hst : s.track_states track.track_id <;> rw [hst] at h <;>
    dsimp only at h
  case outside => split_ifs at h <;> (cases h; try rfl)
  case approaching => split_ifs at h with h1 h2 h3 <;> (cases h; try rfl)
  case inside => split_ifs at h <;> (cases h; try rfl)
  case exiting => split_ifs at h with h1 h2 h3 <;> (cases h; try rfl)
  case logged => cases h; rfl

theorem process_track_event_eq (cfg : EventConfig) (s : EventEngineState)
    (track : Track) (H now : ℚ) :
    (EventEngine.process_track cfg s track H now).1 =
      (EventEngine.transition cfg s track (normY track H) now).1 := by
  unfold EventEngine.process_track
  dsimp only
  split <;> rfl

theorem process_track_cache_eq (cfg : EventConfig) (s : EventEngineState)
    (track : Track) (H now : ℚ) :
    ((EventEngine.process_track cfg s track H now).2.1).recent_plates =
      EventEngineState.recent_plates
        (EventEngine.transition cfg s track (normY track H) now).2.2 := by
  unfold EventEngine.process_track
  dsimp only
  split <;> rfl

theorem process_track_emit (cfg : EventConfig) (s : EventEngineState)
    (track : Track) (H now : ℚ) (e : FSMEvent)
    (h : (EventEngine.process_track cfg s track H now).1 = some e) :
    e.timestamp = now ∧ e.plate_text = track.plate_text ∧
    EventEngine.is_duplicate_entry cfg s track now = false ∧
    (∀ p, e.plate_text = some p →
      ((EventEngine.process_track cfg s track H now).2.1).recent_plates p =
        some now) ∧
    (∀ q, e.plate_text ≠ some q →
      ((EventEngine.process_track cfg s track H now).2.1).recent_plates q =
        s.recent_plates q) := by
  rw [process_track_event_eq] at h
  rcases hT : EventEngine.transition cfg s track (normY track H) now with
    ⟨ev, ns, s'⟩
  rw [hT] at h
  dsimp only at h
  subst h
  obtain ⟨hts, hpl, hdup, hcache⟩ := transition_emit cfg s track _ now e ns s' hT
  refine ⟨hts, hpl, hdup, ?_, ?_⟩
  · intro p hp
    rw [process_track_cache_eq, hT]
    dsimp only
    rw [hcache]
    rw [hpl] at hp
    rw [hp]
    exact refreshPlate_self s p now
  · intro q hq
    rw [process_track_cache_eq, hT]
    dsimp only
    rw [hcache]
    rw [hpl] at hq
    exact refreshPlate_other s track.plate_text now q hq

theorem process_track_none_cache (cfg : EventConfig) (s : EventEngineState)
    (track : Track) (H now : ℚ)
    (h : (EventEngine.process_track cfg s track H now).1 = none) :
    ((EventEngine.process_track cfg s track H now).2.1).recent_plates =
      s.recent_plates := by
  rw [process_track_event_eq] at h
  rcases hT : EventEngine.transition cfg s track (normY track H) now with
    ⟨ev, ns, s'⟩
  rw [hT] at h
  dsimp only at h
  subst h
  rw [process_track_cache_eq, hT]
  exact transition_none cfg s track _ now ns s' hT

theorem process_track_cache_cases (cfg : EventConfig)
    (s : EventEngineState) (track : Track) (H now : ℚ) (p : String) :
    ((EventEngine.process_track cfg s track H now).2.1).recent_plates p =
      s.recent_plates p ∨
    ((EventEngine.process_track cfg s track H now).2.1).recent_plates p =
      some now := by
  cases hev : (EventEngine.process_track cfg s track H now).1 with
  | none => exact Or.inl (by rw [process_track_none_cache cfg s track H now hev])
  | some e =>
      obtain ⟨-, -, -, hself, hother⟩ :=
        process_track_emit cfg s track H now e hev
      by_cases hp : e.plate_text = some p
      · exact Or.inr (hself p hp)
      · exact Or.inl (hother p hp)

/-- If the plate is a fresh-enough duplicate, `process_track` emits no
event at all (entry and exit both consult the same dedup check). -/
theorem process_track_suppressed (cfg : EventConfig)
    (s : EventEngineState) (track : Track) (H now : ℚ)
    (hdup : EventEngine.is_duplicate_entry cfg s track now = true) :
    (EventEngine.process_track cfg s track H now).1 = none := by
  cases hev : (EventEngine.process_track cfg s track H now).1 with
  | none => rfl
  | some e =>
      obtain ⟨-, -, hfalse, -, -⟩ :=
        process_track_emit cfg s track H now e hev
      rw [hdup] at hfalse
      cases hfalse

theorem cleanup_cache_cases (cfg : EventConfig) (s : EventEngineState)
    (now : ℚ) (p : String) :
    (EventEngine.cleanup_old_entries cfg s now).recent_plates p =
      s.recent_plates p ∨
    ((EventEngine.cleanup_old_entries cfg s now).recent_plates p = none ∧
      ∃ ts, s.recent_plates p = some ts ∧
        ts < now - cfg.dedup_window * 2) := by
  unfold EventEngine.cleanup_old_entries
  dsimp only
  cases hp : s.recent_plates p with
  | none => exact Or.inl rfl
  | some ts =>
      dsimp only
      by_cases hc : ts < now - cfg.dedup_window * 2
      · exact Or.inr ⟨by rw [if_pos hc], ts, rfl, hc⟩
      · exact Or.inl (by rw [if_neg hc])

theorem not_dup_sep (cfg : EventConfig) (s : EventEngineState)
    (track : Track) (now : ℚ) (p : String) (tc : ℚ)
    (hpl : track.plate_text = some p)
    (hc : s.recent_plates p = some tc)
    (h : EventEngine.is_duplicate_entry cfg s track now = false) :
    cfg.dedup_window ≤ now - tc := by
  unfold EventEngine.is_duplicate_entry at h
  rw [hpl] at h
  dsimp only at h
  rw [hc] at h
  dsimp only at h
  split_ifs at h with hlt
  linarith

theorem runStep_emit_time (cfg : EventConfig) (s : EventEngineState)
    (st : EngineStep) (e : FSMEvent)
    (h : (runStep cfg s st).2 = some e) : e.timestamp = st.time := by
  cases st with
  | proc now track H =>
      simp only [runStep] at h
      exact (process_track_emit cfg s track H now e h).1
  | cleanup now => simp [runStep] at h

theorem runTrace_event_time_lb (cfg : EventConfig) :
    ∀ (steps : List EngineStep) (s : EventEngineState) (t0 : ℚ),
      (∀ st ∈ steps, t0 ≤ st.time) →
      ∀ e ∈ (runTrace cfg s steps).2, t0 ≤ e.timestamp := by
  intro steps
  induction steps with
  | nil => intro s t0 _ e he; simp [runTrace] at he
  | cons st rest ih =>
      intro s t0 hts e he
      simp only [runTrace] at he
      rcases List.mem_append.mp he with he | he
      · cases hev : (runStep cfg s st).2 with
        | none => rw [hev] at he; simp at he
        | some e0 =>
            rw [hev] at he
            simp only [Option.elim, List.mem_singleton] at he
            subst he
            rw [runStep_emit_time cfg s st e hev]
            exact hts st (by simp)
      · exact ih _ t0 (fun st' hst' => hts st' (by simp [hst'])) e he

theorem runTrace_cache_sep (cfg : EventConfig)
    (hW : 0 ≤ cfg.dedup_window) :
    ∀ (steps : List EngineStep) (s : EventEngineState) (p : String)
      (tc : ℚ),
      s.recent_plates p = some tc →
      (∀ st ∈ steps, tc ≤ st.time) →
      ((steps.map EngineStep.time).Pairwise (· ≤ ·)) →
      ∀ e ∈ (runTrace cfg s steps).2, e.plate_text = some p →
        tc + cfg.dedup_window ≤ e.timestamp := by
  intro steps
  induction steps with
  | nil => intro s p tc _ _ _ e he; simp [runTrace] at he
  | cons st rest ih =>
      intro s p tc hcache hts hchain e he hpl
      have hts_head : tc ≤ st.time := hts st (by simp)
      have hts_rest : ∀ st' ∈ rest, tc ≤ st'.time :=
        fun st' hst' => hts st' (by simp [hst'])
      have hchain' : (∀ a ∈ rest, st.time ≤ a.time) ∧
          (rest.map EngineStep.time).Pairwise (· ≤ ·) := by
        simpa using hchain
      simp only [runTrace] at he
      rcases List.mem_append.mp he with he | he
      · -- emitted by this very step
        cases st with
        | proc now track H =>
            cases hev : (runStep cfg s (.proc now track H)).2 with
            | none => rw [hev] at he; simp at he
            | some e0 =>
                rw [hev] at he
                simp only [Option.elim, List.mem_singleton] at he
                subst he
                simp only [runStep] at hev
                obtain ⟨hts0, hpl0, hdup, -, -⟩ :=
                  process_track_emit cfg s track H now e hev
                have : cfg.dedup_window ≤ now - tc :=
                  not_dup_sep cfg s track now p tc (by rw [← hpl0, hpl])
                    hcache hdup
                rw [hts0]
                linarith
        | cleanup now =>
            rw [show (runStep cfg s (.cleanup now)).2 = none from rfl] at he
            simp at he
      · -- emitted later: track the cache through this step
        cases st with
        | proc now track H =>
            rcases process_track_cache_cases cfg s track H now p with hc | hc
            · exact ih _ p tc (by simp only [runStep]; rw [hc, hcache])
                hts_rest hchain'.2 e he hpl
            · have hsep := ih ((runStep cfg s (.proc now track H)).1) p now
                (by simp only [runStep]; rw [hc])
                hchain'.1 hchain'.2 e he hpl
              have : tc ≤ now := hts_head
              linarith
        | cleanup now =>
            rcases cleanup_cache_cases cfg s now p with hc | ⟨hc, ts0, hts0, hlt⟩
            · exact ih _ p tc (by simp only [runStep]; rw [hc, hcache])
                hts_rest hchain'.2 e he hpl
            · rw [hcache] at hts0
              injection hts0 with hts0
              subst hts0
              have hlb := runTrace_event_time_lb cfg rest _ now
                hchain'.1 e he
              linarith

theorem runTrace_entry_pairwise (cfg : EventConfig)
    (hW : 0 ≤ cfg.dedup_window) :
    ∀ (steps : List EngineStep) (s : EventEngineState),
      ((steps.map EngineStep.time).Pairwise (· ≤ ·)) →
      (∀ p tc, s.recent_plates p = some tc → ∀ st ∈ steps, tc ≤ st.time) →
      ((runTrace cfg s steps).2).Pairwise
        (fun e1 e2 => ∀ p, e1.kind = .entry → e2.kind = .entry →
          e1.plate_text = some p → e2.plate_text = some p →
          e1.timestamp + cfg.dedup_window ≤ e2.timestamp) := by
  intro steps
  induction steps with
  | nil => intro s _ _; simp [runTrace]
  | cons st rest ih =>
      intro s hchain hbound
      have hchain' : (∀ a ∈ rest, st.time ≤ a.time) ∧
          (rest.map EngineStep.time).Pairwise (· ≤ ·) := by
        simpa using hchain
      simp only [runTrace]
      rw [List.pairwise_append]
      refine ⟨?_, ?_, ?_⟩
      · cases hev : (runStep cfg s st).2 <;> simp
      · -- the tail trace, from the post-step state
        apply ih _ hchain'.2
        intro p tc hc st' hst'
        cases st with
        | proc now track H =>
            simp only [runStep] at hc
            rcases process_track_cache_cases cfg s track H now p with h0 | h0
            · exact hbound p tc (by rw [← h0, hc]) st' (by simp [hst'])
            · rw [hc] at h0
              injection h0 with h0
              rw [h0]
              exact hchain'.1 st' hst'
        | cleanup now =>
            simp only [runStep] at hc
            rcases cleanup_cache_cases cfg s now p with h0 | ⟨h0, -⟩
            · exact hbound p tc (by rw [← h0, hc]) st' (by simp [hst'])
            · rw [hc] at h0; cases h0
      · -- one event from this step against every later event
        intro e1 he1 e2 he2
        intro p hk1 hk2 hp1 hp2
        cases st with
        | proc now track H =>
            cases hev : (runStep cfg s (.proc now track H)).2 with
            | none => rw [hev] at he1; simp at he1
            | some e0 =>
                rw [hev] at he1
                simp only [Option.elim, List.mem_singleton] at he1
                subst he1
                simp only [runStep] at hev
                obtain ⟨hts0, hpl0, -, hself, -⟩ :=
                  process_track_emit cfg s track H now e1 hev
                have hcache1 : EventEngineState.recent_plates
                    ((runStep cfg s (.proc now track H)).1) p = some now := by
                  simp only [runStep]
                  exact hself p hp1
                have := runTrace_cache_sep cfg hW rest _ p now hcache1
                  hchain'.1 hchain'.2 e2 he2 hp2
                rw [hts0]
                linarith
        | cleanup now =>
            rw [show (runStep cfg s (.cleanup now)).2 = none from rfl] at he1
            simp at he1

/-- `C1`: over any time-monotone sequence of per-camera FSM steps starting
from a fresh engine (with `dedup_window ≥ 0`), no two emitted entry events
carrying the same plate text lie within `dedup_window` seconds of each
other.  Additionally: whenever a track's plate text is in the dedup cache
with a timestamp less than `dedup_window` old, `process_track` emits
nothing; and every emitted entry event carrying a plate text refreshes that
plate's cache entry to the emission time. -/
theorem C1_entry_dedup (cfg : EventConfig) (camera_id : ℕ)
    (steps : List EngineStep)
    (hW : 0 ≤ cfg.dedup_window)
    (hmono : (steps.map EngineStep.time).Pairwise (· ≤ ·)) :
    ((runTrace cfg (EventEngine.init camera_id) steps).2).Pairwise
      (fun e1 e2 => ∀ p, e1.kind = .entry → e2.kind = .entry →
        e1.plate_text = some p → e2.plate_text = some p →
        e1.timestamp + cfg.dedup_window ≤ e2.timestamp) ∧
    (∀ s track H now,
      EventEngine.is_duplicate_entry cfg s track now = true →
      (EventEngine.process_track cfg s track H now).1 = none) ∧
    (∀ s track H now e,
      (EventEngine.process_track cfg s track H now).1 = some e →
      e.timestamp = now ∧
      ∀ p, e.plate_text = some p →
        ((EventEngine.process_track cfg s track H now).2.1).recent_plates p =
          some now) := by
  refine ⟨?_, ?_, ?_⟩
  · apply runTrace_entry_pairwise cfg hW steps _ hmono
    intro p tc hc
    simp [EventEngine.init] at hc
  · intro s track H now hdup
    exact process_track_suppressed cfg s track H now hdup
  · intro s track H now e hev
    obtain ⟨hts, -, -, hself, -⟩ := process_track_emit cfg s track H now e hev
    exact ⟨hts, hself⟩

/-- Witness for `C1` on a concrete two-step trace. -/
theorem C1_entry_dedup_witness :
    ((runTrace { dedup_window := 60 } (EventEngine.init 1)
      [.proc 0
        { track_id := 1, camera_id := 1, state := .confirmed,
          vehicle_type := .car, first_seen := 0, last_seen := 0,
          bbox := (0, 100, 10, 120), confidence := 1 } 160,
       .proc 2
        { track_id := 1, camera_id := 1, state := .confirmed,
          vehicle_type := .car, first_seen := 0, last_seen := 2,
          bbox := (0, 100, 10, 120), confidence := 1 } 160]).2).Pairwise
      (fun e1 e2 => ∀ p, e1.kind = .entry → e2.kind = .entry →
        e1.plate_text = some p → e2.plate_text = some p →
        e1.timestamp + (60 : ℚ) ≤ e2.timestamp) :=
  (C1_entry_dedup { dedup_window := 60 } 1 _ (by norm_num) (by
    simp only [List.map, EngineStep.time]
    norm_num)).1

/-! ## Tracking engine lifecycle (`TrackingEngine` in `tracking/engine.py`)

The Kalman filter (`KalmanFilter`) performs numpy floating-point linear
algebra, including a matrix inverse in its measurement update.  It is
modelled by an abstract filter type `KF` together with an oracle record of
its operations; every theorem below holds for every oracle, hence for the
numeric filter in particular. -/

/-- The operations `TrackingEngine` uses on a per-track Kalman filter. -/
structure KalmanOracle (KF : Type) where
  init : Bbox → KF
  predict : KF → KF
  get_bbox : KF → Bbox
  meas_update : KF → Bbox → KF
  get_velocity : KF → ℚ × ℚ

/-- The tracking section of the configuration (`TrackingConfig` in
`core/config.py`). -/
structure TrackingConfig where
  max_lost_frames : ℕ := 30
  min_hits : ℕ := 3
  iou_threshold : ℚ := 3/10
  max_age : ℕ := 60
deriving DecidableEq, Repr

instance : Inhabited Track :=
  ⟨{ track_id := 0, camera_id := 0, state := .tentative,
     vehicle_type := .unknown, first_seen := 0, last_seen := 0,
     bbox := (0, 0, 0, 0), confidence := 0 }⟩

instance : Inhabited Detection :=
  ⟨{ bbox := (0, 0, 0, 0), confidence := 0, class_id := 0,
     class_name := .unknown }⟩

/-- Per-camera tracker state: the `tracks` and `kalman_filters` dicts (as
insertion-ordered association lists), the monotone id counter and the
statistics. -/
structure TrackerState (KF : Type) where
  camera_id : ℕ
  tracks : List (ℕ × Track)
  kalman_filters : List (ℕ × KF)
  next_track_id : ℕ
  total_tracks : ℕ
  active_tracks : ℕ

/-- A fresh tracker (`TrackingEngine.__init__`). -/
def TrackingEngine.initState (KF : Type) (camera_id : ℕ) :
    TrackerState KF :=
  { camera_id := camera_id, tracks := [], kalman_filters := [],
    next_track_id := 1, total_tracks := 0, active_tracks := 0 }

/-- Update the value stored under a dict key (`d[k] = f(d[k])`). -/
def updAssoc {α : Type} (l : List (ℕ × α)) (k : ℕ) (f : α → α) :
    List (ℕ × α) :=
  l.map fun p => if p.1 = k then (p.1, f p.2) else p

/-- Store a value under a dict key (`d[k] = v`): replace an existing entry,
else append preserving insertion order. -/
def setAssoc {α : Type} (l : List (ℕ × α)) (k : ℕ) (v : α) :
    List (ℕ × α) :=
  if l.any fun p => decide (p.1 = k) then
    l.map fun p => if p.1 = k then (k, v) else p
  else l ++ [(k, v)]

/-- The per-track body of the matched-update loop (`tracking/engine.py`
lines 156–181): Kalman measurement update, bbox/confidence overwrite, type
and velocity refresh, then the `TENTATIVE → CONFIRMED` and
`LOST → CONFIRMED` transitions.  A missing filter entry (impossible for
engine-built states) would raise in Python; here it leaves the track
unchanged. -/
def matchedUpdate {KF : Type} (cfg : TrackingConfig)
    (ko : KalmanOracle KF) (kfOpt : Option KF) (det : Detection) (now : ℚ)
    (t : Track) : Track :=
  match kfOpt with
  | some kf =>
      let t1 := t.update_bbox (ko.get_bbox kf) det.confidence now
      let t2 := { t1 with
        vehicle_type := det.class_name
        velocity := some (ko.get_velocity kf) }
      let t3 :=
        if t2.state = .tentative ∧ t2.hits ≥ cfg.min_hits then
          { t2 with state := .confirmed }
        else t2
      if t3.state = .lost then { t3 with state := .confirmed } else t3
  | none => t

/-- The per-track body of the unmatched loop (`tracking/engine.py` lines
189–198): demote a confirmed track to lost, then mark it deleted when
`time_since_update` exceeds `max_lost_frames`. -/
def unmatchedUpdate (cfg : TrackingConfig) (t : Track) : Track :=
  let t1 := if t.state = .confirmed then { t with state := .lost } else t
  if t1.time_since_update > cfg.max_lost_frames then
    { t1 with state := .deleted }
  else t1

/-- The matched-update fold over `(track_id, det_idx)` pairs, threading the
tracks and Kalman dicts. -/
def matchedFold {KF : Type} (cfg : TrackingConfig) (ko : KalmanOracle KF)
    (dets : List Detection) (now : ℚ)
    (init : List (ℕ × Track) × List (ℕ × KF))
    (ms : List (ℕ × ℕ)) : List (ℕ × Track) × List (ℕ × KF) :=
  ms.foldl
    (fun acc m =>
      let det := dets.getD m.2 default
      let kal2 := updAssoc acc.2 m.1 fun kf => ko.meas_update kf det.bbox
      let tr2 := updAssoc acc.1 m.1
        (matchedUpdate cfg ko (kal2.lookup m.1) det now)
      (tr2, kal2))
    init

/-- `TrackingEngine._create_track` applied for each unmatched detection,
threading the dicts, the id counter and `total_tracks`. -/
def createFold {KF : Type} (ko : KalmanOracle KF) (camera_id : ℕ)
    (dets : List Detection) (now : ℚ)
    (init : List (ℕ × Track) × List (ℕ × KF) × ℕ × ℕ)
    (js : List ℕ) : List (ℕ × Track) × List (ℕ × KF) × ℕ × ℕ :=
  js.foldl
    (fun acc j =>
      let det := dets.getD j default
      let tid := acc.2.2.1
      let newTrack : Track :=
        { track_id := tid, camera_id := camera_id, state := .tentative,
          vehicle_type := det.class_name, first_seen := now,
          last_seen := now, bbox := det.bbox,
          confidence := det.confidence, hits := 1, age := 0,
          time_since_update := 0 }
      (setAssoc acc.1 tid newTrack,
        setAssoc acc.2.1 tid (ko.init det.bbox), tid + 1, acc.2.2.2 + 1))
    init

/-- The unmatched fold over leftover track ids. -/
def unmatchedFold (cfg : TrackingConfig) (init : List (ℕ × Track))
    (tids : List ℕ) : List (ℕ × Track) :=
  tids.foldl (fun tr tid => updAssoc tr tid (unmatchedUpdate cfg)) init

/-- `TrackingEngine.update`: predict on every live track, associate by IoU,
update matched tracks, create tracks for unmatched detections, demote/delete
unmatched tracks, remove deleted tracks with their filters, and return the
confirmed-or-lost tracks. -/
def TrackingEngine.update {KF : Type} (cfg : TrackingConfig)
    (ko : KalmanOracle KF) (st : TrackerState KF)
    (detections : List Detection) (now : ℚ) :
    TrackerState KF × List Track :=
  let kalman1 := st.kalman_filters.map fun p => (p.1, ko.predict p.2)
  let tracks1 := st.tracks.map fun p =>
    match kalman1.lookup p.1 with
    | some kf =>
        (p.1, { p.2 with
          bbox := ko.get_bbox kf
          age := p.2.age + 1
          time_since_update := p.2.time_since_update + 1 })
    | none => p
  let M := fun i j =>
    iou ((tracks1.getD i default).2.bbox)
      ((detections.getD j default).bbox)
  let mres :=
    TrackingEngine.matchIdx tracks1.length detections.length M
      cfg.iou_threshold
  let matched := mres.1.map fun c => ((tracks1.getD c.1 default).1, c.2)
  let unmatched_dets := mres.2.1
  let unmatched_tracks := mres.2.2.map fun i => (tracks1.getD i default).1
  let step3 := matchedFold cfg ko detections now (tracks1, kalman1) matched
  let step4 := createFold ko st.camera_id detections now
    (step3.1, step3.2, st.next_track_id, st.total_tracks) unmatched_dets
  let tracks4 := unmatchedFold cfg step4.1 unmatched_tracks
  let deleted_ids :=
    (tracks4.filter fun p => decide (p.2.state = .deleted)).map Prod.fst
  let tracks5 := tracks4.filter fun p => decide (p.2.state ≠ .deleted)
  let kalman5 := step4.2.1.filter fun p => decide (p.1 ∉ deleted_ids)
  let active := (tracks5.filter fun p =>
    decide (p.2.state = .confirmed ∨ p.2.state = .lost)).map Prod.snd
  ({ st with
      tracks := tracks5
      kalman_filters := kalman5
      next_track_id := step4.2.2.1
      total_tracks := step4.2.2.2
      active_tracks := active.length },
    active)

/-! ### Association-list lemmas for the tracker folds -/

theorem mem_updAssoc {α : Type} {l : List (ℕ × α)} {k0 : ℕ} {f : α → α}
    {k : ℕ} {v : α} (h : (k, v) ∈ updAssoc l k0 f) :
    ∃ v0, (k, v0) ∈ l ∧
      ((k = k0 ∧ v = f v0) ∨ (k ≠ k0 ∧ v = v0)) := by
  unfold updAssoc at h
  obtain ⟨p, hp, hpe⟩ := List.mem_map.mp h
  by_cases hk : p.1 = k0
  · rw [if_pos hk] at hpe
    rw [Prod.mk.injEq] at hpe
    obtain ⟨h1, h2⟩ := hpe
    refine ⟨p.2, ?_, Or.inl ⟨by rw [← h1, hk], h2.symm⟩⟩
    rw [← h1]
    simpa using hp
  · rw [if_neg hk] at hpe
    subst hpe
    exact ⟨v, hp, Or.inr ⟨fun he => hk (by rw [he]) , rfl⟩⟩

theorem mem_setAssoc {α : Type} {l : List (ℕ × α)} {k0 : ℕ} {v0 : α}
    {k : ℕ} {v : α} (h : (k, v) ∈ setAssoc l k0 v0) :
    (k, v) ∈ l ∨ (k = k0 ∧ v = v0) := by
  unfold setAssoc at h
  split at h
  · obtain ⟨p, hp, hpe⟩ := List.mem_map.mp h
    by_cases hk : p.1 = k0
    · rw [if_pos hk] at hpe
      rw [Prod.mk.injEq] at hpe
      exact Or.inr ⟨hpe.1.symm, hpe.2.symm⟩
    · rw [if_neg hk] at hpe
      subst hpe
      exact Or.inl hp
  · rcases List.mem_append.mp h with h | h
    · exact Or.inl h
    · simp only [List.mem_singleton] at h
      rw [Prod.mk.injEq] at h
      exact Or.inr h

theorem lookup_isSome_map {α β : Type} (g : ℕ × α → ℕ × β)
    (hg : ∀ p, (g p).1 = p.1) (l : List (ℕ × α)) (k : ℕ) :
    ((l.map g).lookup k).isSome = (l.lookup k).isSome := by
  induction l with
  | nil => rfl
  | cons p rest ih =>
      simp only [List.map_cons, List.lookup]
      rw [show (g p).1 = p.1 from hg p]
      by_cases hk : k = p.1
      · simp [hk]
      · have : (k == p.1) = false := by simpa using hk
        rw [this]
        simpa using ih

theorem lookup_isSome_updAssoc {α : Type} (l : List (ℕ × α)) (k0 : ℕ)
    (f : α → α) (k : ℕ) :
    ((updAssoc l k0 f).lookup k).isSome = (l.lookup k).isSome := by
  unfold updAssoc
  apply lookup_isSome_map
  intro p
  by_cases hk : p.1 = k0 <;> simp [hk]

theorem matchedUpdate_tsu {KF : Type} (cfg : TrackingConfig)
    (ko : KalmanOracle KF) (kf : KF) (det : Detection) (now : ℚ)
    (t : Track) :
    (matchedUpdate cfg ko (some kf) det now t).time_since_update = 0 := by
  unfold matchedUpdate
  dsimp only
  unfold Track.update_bbox
  split_ifs <;> rfl

theorem matchedUpdate_age {KF : Type} (cfg : TrackingConfig)
    (ko : KalmanOracle KF) (kfOpt : Option KF) (det : Detection) (now : ℚ)
    (t : Track) : (matchedUpdate cfg ko kfOpt det now t).age = t.age := by
  unfold matchedUpdate
  cases kfOpt with
  | none => rfl
  | some kf =>
      dsimp only
      unfold Track.update_bbox
      split_ifs <;> rfl

theorem unmatchedUpdate_tsu (cfg : TrackingConfig) (t : Track) :
    (unmatchedUpdate cfg t).time_since_update = t.time_since_update := by
  simp only [unmatchedUpdate]
  split_ifs <;> rfl

theorem unmatchedUpdate_age (cfg : TrackingConfig) (t : Track) :
    (unmatchedUpdate cfg t).age = t.age := by
  simp only [unmatchedUpdate]
  split_ifs <;> rfl

theorem unmatchedUpdate_sound (cfg : TrackingConfig) (t : Track)
    (h : (unmatchedUpdate cfg t).state ≠ .deleted) :
    (unmatchedUpdate cfg t).time_since_update ≤ cfg.max_lost_frames := by
  simp only [unmatchedUpdate] at h ⊢
  split_ifs at h ⊢ with h1 h2 h3
  all_goals try dsimp only at *
  all_goals first
    | exact absurd rfl h
    | omega

theorem matchedFold_mem {KF : Type} (cfg : TrackingConfig)
    (ko : KalmanOracle KF) (dets : List Detection) (now : ℚ) :
    ∀ (ms : List (ℕ × ℕ)) (tr : List (ℕ × Track)) (kal : List (ℕ × KF)),
      (∀ pid ∈ ms.map Prod.fst, (kal.lookup pid).isSome = true) →
      ∀ k v, (k, v) ∈ (matchedFold cfg ko dets now (tr, kal) ms).1 →
        (k ∈ ms.map Prod.fst → v.time_since_update = 0) ∧
        (k ∉ ms.map Prod.fst → (k, v) ∈ tr) := by
  intro ms
  induction ms with
  | nil =>
      intro tr kal _ k v h
      exact ⟨by simp, fun _ => h⟩
  | cons m rest ih =>
      intro tr kal hkal k v h
      simp only [matchedFold, List.foldl_cons] at h
      have hkal2 : ∀ pid ∈ rest.map Prod.fst,
          Option.isSome ((updAssoc kal m.1 fun kf =>
            ko.meas_update kf (dets.getD m.2 default).bbox).lookup pid) =
            true := by
        intro pid hpid
        rw [lookup_isSome_updAssoc]
        exact hkal pid (by simp [hpid])
      have ihr := ih _ _ hkal2 k v h
      have hm1 : Option.isSome ((updAssoc kal m.1 fun kf =>
          ko.meas_update kf (dets.getD m.2 default).bbox).lookup m.1) =
          true := by
        rw [lookup_isSome_updAssoc]
        exact hkal m.1 (by simp)
      constructor
      · intro hk
        by_cases hkr : k ∈ rest.map Prod.fst
        · exact ihr.1 hkr
        · have hkm : k = m.1 := by
            simp only [List.map_cons, List.mem_cons] at hk
            tauto
          have hmem := ihr.2 hkr
          obtain ⟨v0, -, hcase⟩ := mem_updAssoc hmem
          rcases hcase with ⟨-, hv⟩ | ⟨hne, -⟩
          · obtain ⟨kf, hkf⟩ := Option.isSome_iff_exists.mp hm1
            rw [hv, hkf]
            exact matchedUpdate_tsu cfg ko kf _ now v0
          · exact absurd hkm hne
      · intro hk
        have hkr : k ∉ rest.map Prod.fst := by
          intro hc
          exact hk (by simp [hc])
        have hkm : k ≠ m.1 := by
          intro hc
          exact hk (by simp [hc])
        obtain ⟨v0, hv0, hcase⟩ := mem_updAssoc (ihr.2 hkr)
        rcases hcase with ⟨he, -⟩ | ⟨-, hv⟩
        · exact absurd he hkm
        · rw [hv]
          exact hv0

theorem createFold_mem {KF : Type} (ko : KalmanOracle KF) (cid : ℕ)
    (dets : List Detection) (now : ℚ) :
    ∀ (js : List ℕ) (tr : List (ℕ × Track)) (kal : List (ℕ × KF))
      (nid tot : ℕ) (k : ℕ) (v : Track),
      (k, v) ∈ (createFold ko cid dets now (tr, kal, nid, tot) js).1 →
      (k, v) ∈ tr ∨
        (v.time_since_update = 0 ∧ v.state = .tentative ∧ v.hits = 1 ∧
          v.age = 0) := by
  intro js
  induction js with
  | nil => intro tr kal nid tot k v h; exact Or.inl h
  | cons j rest ih =>
      intro tr kal nid tot k v h
      simp only [createFold, List.foldl_cons] at h
      have ihr := ih _ _ _ _ k v h
      rcases ihr with hmem | hnew
      · rcases mem_setAssoc hmem with hmem | ⟨-, hv⟩
        · exact Or.inl hmem
        · subst hv
          exact Or.inr ⟨rfl, rfl, rfl, rfl⟩
      · exact Or.inr hnew

theorem unmatchedFold_mem (cfg : TrackingConfig) :
    ∀ (tids : List ℕ) (tr : List (ℕ × Track)) (k : ℕ) (v : Track),
      (k, v) ∈ unmatchedFold cfg tr tids →
      (k ∈ tids → (v.state ≠ .deleted →
        v.time_since_update ≤ cfg.max_lost_frames)) ∧
      (k ∉ tids → (k, v) ∈ tr) := by
  intro tids
  induction tids with
  | nil =>
      intro tr k v h
      exact ⟨by simp, fun _ => h⟩
  | cons tid rest ih =>
      intro tr k v h
      simp only [unmatchedFold, List.foldl_cons] at h
      have ihr := ih _ k v h
      constructor
      · intro hk
        by_cases hkr : k ∈ rest
        · exact ihr.1 hkr
        · have hkm : k = tid := by
            simp only [List.mem_cons] at hk
            tauto
          obtain ⟨v0, -, hcase⟩ := mem_updAssoc (ihr.2 hkr)
          rcases hcase with ⟨-, hv⟩ | ⟨hne, -⟩
          · rw [hv]
            exact unmatchedUpdate_sound cfg v0
          · exact absurd hkm hne
      · intro hk
        have hkr : k ∉ rest := fun hc => hk (by simp [hc])
        have hkm : k ≠ tid := fun hc => hk (by simp [hc])
        obtain ⟨v0, hv0, hcase⟩ := mem_updAssoc (ihr.2 hkr)
        rcases hcase with ⟨he, -⟩ | ⟨-, hv⟩
        · exact absurd he hkm
        · rw [hv]
          exact hv0

theorem mem_foldl_greedyAccept :
    ∀ (cs : List (ℕ × ℕ)) (acc : List (ℕ × ℕ)) (c : ℕ × ℕ),
      c ∈ cs.foldl greedyAccept acc → c ∈ acc ∨ c ∈ cs := by
  intro cs
  induction cs with
  | nil => intro acc c h; exact Or.inl h
  | cons x rest ih =>
      intro acc c h
      simp only [List.foldl_cons] at h
      rcases ih _ c h with h | h
      · unfold greedyAccept at h
        split_ifs at h
        · rcases List.mem_append.mp h with h | h
          · exact Or.inl h
          · simp only [List.mem_singleton] at h
            exact Or.inr (by simp [h])
        · exact Or.inl h
      · exact Or.inr (by simp [h])

theorem greedyMatch_subset (cs : List (ℕ × ℕ)) (c : ℕ × ℕ)
    (h : c ∈ greedyMatch cs) : c ∈ cs := by
  rcases mem_foldl_greedyAccept cs [] c h with h | h
  · simp at h
  · exact h

theorem cellsAbove_bounds (nT nD : ℕ) (M : ℕ → ℕ → ℚ) (thr : ℚ)
    (c : ℕ × ℕ) (h : c ∈ cellsAbove nT nD M thr) : c.1 < nT ∧ c.2 < nD := by
  unfold cellsAbove at h
  simp only [List.mem_flatMap, List.mem_map, List.mem_filter,
    List.mem_range] at h
  obtain ⟨i, hi, j, ⟨hj, -⟩, hc⟩ := h
  rw [← hc]
  exact ⟨hi, hj⟩

theorem matchIdx_matched_bounds (nT nD : ℕ) (M : ℕ → ℕ → ℚ) (thr : ℚ) :
    ∀ c ∈ (TrackingEngine.matchIdx nT nD M thr).1, c.1 < nT ∧ c.2 < nD := by
  intro c hc
  unfold TrackingEngine.matchIdx at hc
  split_ifs at hc with h0
  · simp at hc
  · dsimp only at hc
    have := greedyMatch_subset _ c hc
    rw [List.mem_insertionSort] at this
    exact cellsAbove_bounds nT nD M thr c this

theorem matchIdx_partition (nT nD : ℕ) (M : ℕ → ℕ → ℚ) (thr : ℚ) :
    ∀ i < nT, (∃ j, (i, j) ∈ (TrackingEngine.matchIdx nT nD M thr).1) ∨
      i ∈ (TrackingEngine.matchIdx nT nD M thr).2.2 := by
  intro i hi
  unfold TrackingEngine.matchIdx
  split_ifs with h0
  · exact Or.inr (by simpa using hi)
  · dsimp only
    by_cases hm : ∃ j,
        (i, j) ∈ greedyMatch (List.insertionSort (iouGE M)
          (cellsAbove nT nD M thr))
    · exact Or.inl hm
    · right
      rw [List.mem_filter]
      refine ⟨by simpa using hi, ?_⟩
      simp only [decide_eq_true_eq]
      intro hc
      obtain ⟨c, hcmem, hcf⟩ := List.mem_map.mp hc
      exact hm ⟨c.2, by rw [show (i, c.2) = c from by rw [← hcf]]; exact hcmem⟩

/-- The core retained-track invariant over the tracker's fold pipeline:
after the matched, created and unmatched phases, a surviving non-deleted
track has `time_since_update ≤ max_lost_frames`, provided every matched id
has a Kalman filter and every pre-existing id is matched or unmatched. -/
theorem retained_core {KF : Type} (cfg : TrackingConfig)
    (ko : KalmanOracle KF) (dets : List Detection) (now : ℚ)
    (tracks1 : List (ℕ × Track)) (kalman1 : List (ℕ × KF))
    (matched : List (ℕ × ℕ)) (uds : List ℕ) (umt : List ℕ)
    (nid tot cid : ℕ)
    (hkal : ∀ pid ∈ matched.map Prod.fst,
      (kalman1.lookup pid).isSome = true)
    (hcover : ∀ k v, (k, v) ∈ tracks1 →
      k ∈ matched.map Prod.fst ∨ k ∈ umt) :
    ∀ k v,
      (k, v) ∈ unmatchedFold cfg
        (createFold ko cid dets now
          ((matchedFold cfg ko dets now (tracks1, kalman1) matched).1,
            (matchedFold cfg ko dets now (tracks1, kalman1) matched).2,
            nid, tot) uds).1 umt →
      v.state ≠ .deleted → v.time_since_update ≤ cfg.max_lost_frames := by
  intro k v h hnd
  have h4 := unmatchedFold_mem cfg umt _ k v h
  by_cases hk : k ∈ umt
  · exact h4.1 hk hnd
  · have h3mem := h4.2 hk
    rcases createFold_mem ko cid dets now uds _ _ nid tot k v h3mem with
      h3 | hnew
    · have hmf := matchedFold_mem cfg ko dets now matched tracks1 kalman1
        hkal k v h3
      by_cases hkm : k ∈ matched.map Prod.fst
      · rw [hmf.1 hkm]
        exact Nat.zero_le _
      · rcases hcover k v (hmf.2 hkm) with hc | hc
        · exact absurd hc hkm
        · exact absurd hc hk
    · rw [hnew.1]
      exact Nat.zero_le _

theorem predictEntry_key {KF : Type} (ko : KalmanOracle KF)
    (kalman1 : List (ℕ × KF)) (p : ℕ × Track) :
    (match kalman1.lookup p.1 with
      | some kf =>
          (p.1, { p.2 with
            bbox := ko.get_bbox kf
            age := p.2.age + 1
            time_since_update := p.2.time_since_update + 1 })
      | none => p).1 = p.1 := by
  cases kalman1.lookup p.1 <;> rfl

/-- `C7`: after every call to the tracker's `update` (on a state whose
tracks all have Kalman filters, as the engine maintains), every retained
track has `time_since_update ≤ max_lost_frames` and no retained track is
Deleted: a track whose counter exceeds the bound is marked Deleted in that
same update, and all Deleted tracks (with their filters) are removed before
`update` returns. -/
theorem C7_update_no_stale_tracks {KF : Type} (cfg : TrackingConfig)
    (ko : KalmanOracle KF) (st : TrackerState KF)
    (detections : List Detection) (now : ℚ)
    (hkf : ∀ p ∈ st.tracks,
      (st.kalman_filters.lookup p.1).isSome = true) :
    ∀ p ∈ (TrackingEngine.update cfg ko st detections now).1.tracks,
      p.2.time_since_update ≤ cfg.max_lost_frames ∧
      p.2.state ≠ TrackState.deleted := by
  intro p hp
  obtain ⟨k, v⟩ := p
  simp only [TrackingEngine.update] at hp
  rw [List.mem_filter] at hp
  obtain ⟨hp4, hnd⟩ := hp
  have hnd' : v.state ≠ TrackState.deleted := by simpa using hnd
  refine ⟨?_, hnd'⟩
  refine retained_core cfg ko detections now _ _ _ _ _ _ _ _ ?_ ?_ k v hp4
    hnd'
  · -- every matched id has a (predicted) Kalman filter
    intro pid hpid
    rw [lookup_isSome_map (fun p => (p.1, ko.predict p.2)) (fun p => rfl)]
    obtain ⟨q, hq, hqe⟩ := List.mem_map.mp hpid
    obtain ⟨c, hc, hce⟩ := List.mem_map.mp hq
    have hb := matchIdx_matched_bounds _ _ _ _ c hc
    rw [List.getD_eq_getElem _ _ hb.1] at hce
    have hmem := List.getElem_mem hb.1
    obtain ⟨r, hr, hre⟩ := List.mem_map.mp hmem
    have hkey := predictEntry_key ko
      (st.kalman_filters.map fun p => (p.1, ko.predict p.2)) r
    rw [hre] at hkey
    have : pid = r.1 := by
      rw [← hqe, ← hce]
      exact hkey.symm ▸ (by rw [← hkey])
    rw [this]
    exact hkf r hr
  · -- every pre-existing id is matched or unmatched
    intro k0 v0 hm
    obtain ⟨i, hi, hie⟩ := List.mem_iff_getElem.mp hm
    rcases matchIdx_partition _ _ _ _ i hi with ⟨j, hj⟩ | hun
    · left
      refine List.mem_map.mpr ⟨_, List.mem_map.mpr ⟨(i, j), hj, rfl⟩, ?_⟩
      rw [List.getD_eq_getElem _ _ hi, hie]
    · right
      refine List.mem_map.mpr ⟨i, hun, ?_⟩
      rw [List.getD_eq_getElem _ _ hi, hie]

/-- A trivial Kalman oracle on the unit type, used to instantiate the
oracle-generic tracker theorems at concrete states. -/
def unitKO : KalmanOracle Unit :=
  { init := fun _ => ()
    predict := fun _ => ()
    get_bbox := fun _ => (0, 0, 0, 0)
    meas_update := fun k _ => k
    get_velocity := fun _ => (0, 0) }

/-- Witness for `C7`: a concrete one-track state, updated on a frame with
no detections; the retained (now lost) track satisfies the invariant. -/
theorem C7_update_no_stale_tracks_witness :
    ({ track_id := 1, camera_id := 1, state := TrackState.lost,
       vehicle_type := .car, first_seen := 0, last_seen := 0,
       bbox := (0, 0, 0, 0), confidence := 1, hits := 0, age := 1,
       time_since_update := 1 } : Track).time_since_update ≤
      (30 : ℕ) ∧
    ({ track_id := 1, camera_id := 1, state := TrackState.lost,
       vehicle_type := .car, first_seen := 0, last_seen := 0,
       bbox := (0, 0, 0, 0), confidence := 1, hits := 0, age := 1,
       time_since_update := 1 } : Track).state ≠ TrackState.deleted :=
  C7_update_no_stale_tracks { } unitKO
    { camera_id := 1,
      tracks := [(1,
        { track_id := 1, camera_id := 1, state := .confirmed,
          vehicle_type := .car, first_seen := 0, last_seen := 0,
          bbox := (0, 0, 10, 10), confidence := 1 })],
      kalman_filters := [(1, ())], next_track_id := 2, total_tracks := 1,
      active_tracks := 1 }
    [] 5 (by decide)
    (1, { track_id := 1, camera_id := 1, state := TrackState.lost,
          vehicle_type := .car, first_seen := 0, last_seen := 0,
          bbox := (0, 0, 0, 0), confidence := 1, hits := 0, age := 1,
          time_since_update := 1 })
    (by decide)

/-! ## The processing pipeline (`ANPRPipeline._process_frame` in `main.py`)

The detector is the external CNN oracle: its per-frame output enters as the
`detections` argument.  The OCR recognizer's validated per-track outcome for
the frame enters as `ocrOracle`. -/

/-- The per-camera components owned by the pipeline (`trackers[cid]`,
`ocr_engines[cid]`, `event_engines[cid]`). -/
structure CameraBundle (KF : Type) where
  tracker : TrackerState KF
  ocr : OCREngineState
  events : EventEngineState

/-- The pipeline state visible to `_process_frame`. -/
structure PipelineState (KF : Type) where
  cameras : ℕ → Option (CameraBundle KF)
  database : DBState

/-- The OCR block of `_process_frame` (`main.py` lines 166–191), folded over
the active tracks in order, threading the shared track store and the OCR
engine state. -/
def ocrPhase (cfgO : OCRConfig) (ocrOracle : ℕ → Option (String × ℚ))
    (now : ℚ) (init : List (ℕ × Track) × OCREngineState)
    (ids : List ℕ) : List (ℕ × Track) × OCREngineState :=
  ids.foldl
    (fun acc tid =>
      match acc.1.lookup tid with
      | some t =>
          let r := pipelineOCRTrack cfgO (ocrOracle tid) now acc.2 t
          (updAssoc acc.1 tid fun _ => r.1, r.2)
      | none => acc)
    init

/-- The event block of `_process_frame` (`main.py` lines 193–202), folded
over the active tracks in order, threading the shared track store, the FSM
state and the database (each emitted event is enqueued to the writer). -/
def fsmPhase (cfgE : EventConfig) (frame_height now : ℚ)
    (init : List (ℕ × Track) × EventEngineState × DBState)
    (ids : List ℕ) : List (ℕ × Track) × EventEngineState × DBState :=
  ids.foldl
    (fun acc tid =>
      match acc.1.lookup tid with
      | some t =>
          let r := EventEngine.process_track cfgE acc.2.1 t frame_height now
          let db' :=
            match r.1 with
            | some e => DatabaseManager.insert_event acc.2.2 e
            | none => acc.2.2
          (updAssoc acc.1 tid fun _ => r.2.2, r.2.1, db')
      | none => acc)
    init

/-- `ANPRPipeline._process_frame`: detector output in hand, return early on
no detections; otherwise route the frame to the camera's tracker, run the
throttled OCR block over the active tracks, then the FSM block, enqueueing
emitted events to the durable writer. -/
def ANPRPipeline.process_frame {KF : Type} (cfgT : TrackingConfig)
    (cfgO : OCRConfig) (cfgE : EventConfig) (ko : KalmanOracle KF)
    (ocrOracle : ℕ → Option (String × ℚ)) (camera_id : ℕ)
    (detections : List Detection) (frame_height now : ℚ)
    (ps : PipelineState KF) : PipelineState KF :=
  if detections = [] then ps
  else
    match ps.cameras camera_id with
    | none => ps
    | some cb =>
        let ures := TrackingEngine.update cfgT ko cb.tracker detections now
        let activeIds := ures.2.map Track.track_id
        let ocrRes := ocrPhase cfgO ocrOracle now (ures.1.tracks, cb.ocr)
          activeIds
        let fsmRes := fsmPhase cfgE frame_height now
          (ocrRes.1, cb.events, ps.database) activeIds
        let cb' : CameraBundle KF :=
          { tracker := { ures.1 with tracks := fsmRes.1 }
            ocr := ocrRes.2
            events := fsmRes.2.1 }
        { ps with
          cameras := fun k =>
            if k = camera_id then some cb' else ps.cameras k
          database := fsmRes.2.2 }

/-! ### Field-preservation lemmas used for `C3` -/

theorem lookup_mem {α : Type} :
    ∀ (l : List (ℕ × α)) (k : ℕ) (v : α), l.lookup k = some v →
      (k, v) ∈ l := by
  intro l
  induction l with
  | nil => intro k v h; simp [List.lookup] at h
  | cons p rest ih =>
      intro k v h
      simp only [List.lookup] at h
      by_cases hk : k = p.1
      · have : (k == p.1) = true := by simpa using hk
        rw [this] at h
        injection h with h
        subst h
        rw [hk]
        exact List.mem_cons_self _ _
      · have : (k == p.1) = false := by simpa using hk
        rw [this] at h
        exact List.mem_cons_of_mem _ (ih k v h)

theorem nodup_assoc_eq {α : Type} :
    ∀ (l : List (ℕ × α)), (l.map Prod.fst).Nodup →
      ∀ (k : ℕ) (a b : α), (k, a) ∈ l → (k, b) ∈ l → a = b := by
  intro l
  induction l with
  | nil => intro _ k a b h; simp at h
  | cons p rest ih =>
      intro hnd k a b ha hb
      simp only [List.map_cons, List.nodup_cons] at hnd
      rcases List.mem_cons.mp ha with ha | ha <;>
        rcases List.mem_cons.mp hb with hb | hb
      · rw [← hb] at ha
        exact (Prod.mk.injEq _ _ _ _ |>.mp ha).2
      · exfalso
        apply hnd.1
        refine List.mem_map.mpr ⟨(k, b), hb, ?_⟩
        rw [← ha]
      · exfalso
        apply hnd.1
        refine List.mem_map.mpr ⟨(k, a), ha, ?_⟩
        rw [← hb]
      · exact ih hnd.2 k a b ha hb

theorem add_plate_reading_age_tsu (t : Track) (text : String)
    (conf now : ℚ) :
    (t.add_plate_reading text conf now).age = t.age ∧
    (t.add_plate_reading text conf now).time_since_update =
      t.time_since_update := by
  unfold Track.add_plate_reading
  split_ifs <;> exact ⟨rfl, rfl⟩

theorem plateFinalizeStep_age_tsu (cfg : OCRConfig) (t : Track) :
    (plateFinalizeStep cfg t).age = t.age ∧
    (plateFinalizeStep cfg t).time_since_update = t.time_since_update := by
  unfold plateFinalizeStep
  split_ifs
  · cases OCREngine.fuse_readings cfg t.plate_readings <;> exact ⟨rfl, rfl⟩
  · exact ⟨rfl, rfl⟩

theorem pipelineOCRTrack_age_tsu (cfg : OCRConfig)
    (oracle : Option (String × ℚ)) (now : ℚ) (s : OCREngineState)
    (t : Track) :
    (pipelineOCRTrack cfg oracle now s t).1.age = t.age ∧
    (pipelineOCRTrack cfg oracle now s t).1.time_since_update =
      t.time_since_update := by
  unfold pipelineOCRTrack
  split_ifs
  · dsimp only
    rcases hres : (OCREngine.recognize_plate cfg s t.track_id now oracle).1
      with _ | ⟨text, conf⟩
    · exact ⟨rfl, rfl⟩
    · dsimp only
      have h1 := add_plate_reading_age_tsu t text conf now
      have h2 := plateFinalizeStep_age_tsu cfg
        (t.add_plate_reading text conf now)
      exact ⟨h2.1.trans h1.1, h2.2.trans h1.2⟩
  · exact ⟨rfl, rfl⟩
  · exact ⟨rfl, rfl⟩

theorem process_track_age_tsu (cfg : EventConfig) (s : EventEngineState)
    (t : Track) (H now : ℚ) :
    (EventEngine.process_track cfg s t H now).2.2.age = t.age ∧
    (EventEngine.process_track cfg s t H now).2.2.time_since_update =
      t.time_since_update := by
  unfold EventEngine.process_track
  dsimp only
  split_ifs <;> exact ⟨rfl, rfl⟩

theorem ocrPhase_age_tsu (cfgO : OCRConfig)
    (ocrOracle : ℕ → Option (String × ℚ)) (now : ℚ) :
    ∀ (ids : List ℕ) (tr : List (ℕ × Track)) (o : OCREngineState)
      (k : ℕ) (v' : Track),
      (k, v') ∈ (ocrPhase cfgO ocrOracle now (tr, o) ids).1 →
      ∃ v, (k, v) ∈ tr ∧ v'.age = v.age ∧
        v'.time_since_update = v.time_since_update := by
  intro ids
  induction ids with
  | nil => intro tr o k v' h; exact ⟨v', h, rfl, rfl⟩
  | cons tid rest ih =>
      intro tr o k v' h
      simp only [ocrPhase, List.foldl_cons] at h
      cases hl : tr.lookup tid with
      | none =>
          rw [hl] at h
          obtain ⟨v, hv, ha, ht⟩ := ih tr o k v' h
          exact ⟨v, hv, ha, ht⟩
      | some t0 =>
          rw [hl] at h
          dsimp only at h
          obtain ⟨v1, hv1, ha1, ht1⟩ := ih _ _ k v' h
          obtain ⟨v0, hv0, hcase⟩ := mem_updAssoc hv1
          rcases hcase with ⟨hkk, hv⟩ | ⟨-, hv⟩
          · subst hkk
            have hfields := pipelineOCRTrack_age_tsu cfgO (ocrOracle k)
              now o t0
            refine ⟨t0, lookup_mem tr k t0 hl, ?_, ?_⟩
            · rw [ha1, hv, hfields.1]
            · rw [ht1, hv, hfields.2]
          · exact ⟨v0, hv0, by rw [ha1, hv], by rw [ht1, hv]⟩

theorem fsmPhase_age_tsu (cfgE : EventConfig) (H now : ℚ) :
    ∀ (ids : List ℕ) (tr : List (ℕ × Track)) (es : EventEngineState)
      (db : DBState) (k : ℕ) (v' : Track),
      (k, v') ∈ (fsmPhase cfgE H now (tr, es, db) ids).1 →
      ∃ v, (k, v) ∈ tr ∧ v'.age = v.age ∧
        v'.time_since_update = v.time_since_update := by
  intro ids
  induction ids with
  | nil => intro tr es db k v' h; exact ⟨v', h, rfl, rfl⟩
  | cons tid rest ih =>
      intro tr es db k v' h
      simp only [fsmPhase, List.foldl_cons] at h
      cases hl : tr.lookup tid with
      | none =>
          rw [hl] at h
          exact ih tr es db k v' h
      | some t0 =>
          rw [hl] at h
          dsimp only at h
          obtain ⟨v1, hv1, ha1, ht1⟩ := ih _ _ _ k v' h
          obtain ⟨v0, hv0, hcase⟩ := mem_updAssoc hv1
          rcases hcase with ⟨hkk, hv⟩ | ⟨-, hv⟩
          · subst hkk
            have hfields := process_track_age_tsu cfgE es t0 H now
            refine ⟨t0, lookup_mem tr k t0 hl, ?_, ?_⟩
            · rw [ha1, hv, hfields.1]
            · rw [ht1, hv, hfields.2]
          · exact ⟨v0, hv0, by rw [ha1, hv], by rw [ht1, hv]⟩

theorem matchedUpdate_tsu_cases {KF : Type} (cfg : TrackingConfig)
    (ko : KalmanOracle KF) (kfOpt : Option KF) (det : Detection)
    (now : ℚ) (t : Track) :
    (matchedUpdate cfg ko kfOpt det now t).time_since_update =
      t.time_since_update ∨
    (matchedUpdate cfg ko kfOpt det now t).time_since_update = 0 := by
  cases kfOpt with
  | none => exact Or.inl rfl
  | some kf => exact Or.inr (matchedUpdate_tsu cfg ko kf det now t)

theorem matchedFold_age_tsu {KF : Type} (cfg : TrackingConfig)
    (ko : KalmanOracle KF) (dets : List Detection) (now : ℚ) :
    ∀ (ms : List (ℕ × ℕ)) (tr : List (ℕ × Track)) (kal : List (ℕ × KF))
      (k : ℕ) (v' : Track),
      (k, v') ∈ (matchedFold cfg ko dets now (tr, kal) ms).1 →
      ∃ v, (k, v) ∈ tr ∧ v'.age = v.age ∧
        (v'.time_since_update = v.time_since_update ∨
          v'.time_since_update = 0) := by
  intro ms
  induction ms with
  | nil => intro tr kal k v' h; exact ⟨v', h, rfl, Or.inl rfl⟩
  | cons m rest ih =>
      intro tr kal k v' h
      simp only [matchedFold, List.foldl_cons] at h
      obtain ⟨v1, hv1, ha1, ht1⟩ := ih _ _ k v' h
      obtain ⟨v0, hv0, hcase⟩ := mem_updAssoc hv1
      rcases hcase with ⟨-, hv⟩ | ⟨-, hv⟩
      · refine ⟨v0, hv0, ?_, ?_⟩
        · rw [ha1, hv, matchedUpdate_age]
        · rcases matchedUpdate_tsu_cases cfg ko _ (dets.getD m.2 default)
            now v0 with hc | hc
          · rcases ht1 with ht1 | ht1
            · exact Or.inl (by rw [ht1, hv, hc])
            · exact Or.inr ht1
          · rcases ht1 with ht1 | ht1
            · exact Or.inr (by rw [ht1, hv, hc])
            · exact Or.inr ht1
      · exact ⟨v0, hv0, by rw [ha1, hv], by rw [hv] at ht1; exact ht1⟩

theorem createFold_preexisting {KF : Type} (ko : KalmanOracle KF)
    (cid : ℕ) (dets : List Detection) (now : ℚ) :
    ∀ (js : List ℕ) (tr : List (ℕ × Track)) (kal : List (ℕ × KF))
      (nid tot : ℕ),
      (∀ p ∈ tr, p.1 < nid) →
      ∀ (k : ℕ) (v : Track),
        (k, v) ∈ (createFold ko cid dets now (tr, kal, nid, tot) js).1 →
        k < nid → (k, v) ∈ tr := by
  intro js
  induction js with
  | nil => intro tr kal nid tot _ k v h _; exact h
  | cons j rest ih =>
      intro tr kal nid tot hfresh k v h hk
      simp only [createFold, List.foldl_cons] at h
      have hfresh' : ∀ p ∈ setAssoc tr nid
          { track_id := nid, camera_id := cid, state := .tentative,
            vehicle_type := (dets.getD j default).class_name,
            first_seen := now, last_seen := now,
            bbox := (dets.getD j default).bbox,
            confidence := (dets.getD j default).confidence, hits := 1,
            age := 0, time_since_update := 0 }, p.1 < nid + 1 := by
        intro p hp
        rcases mem_setAssoc (show (p.1, p.2) ∈ _ from hp) with hp' | ⟨he, -⟩
        · exact Nat.lt_succ_of_lt (hfresh _ hp')
        · rw [he]
          exact Nat.lt_succ_self _
      have := ih _ _ (nid + 1) (tot + 1) hfresh' k v h
        (Nat.lt_succ_of_lt hk)
      rcases mem_setAssoc this with h' | ⟨he, -⟩
      · exact h'
      · exact absurd he (Nat.ne_of_lt hk)

theorem unmatchedFold_age_tsu (cfg : TrackingConfig) :
    ∀ (tids : List ℕ) (tr : List (ℕ × Track)) (k : ℕ) (v' : Track),
      (k, v') ∈ unmatchedFold cfg tr tids →
      ∃ v, (k, v) ∈ tr ∧ v'.age = v.age ∧
        v'.time_since_update = v.time_since_update := by
  intro tids
  induction tids with
  | nil => intro tr k v' h; exact ⟨v', h, rfl, rfl⟩
  | cons tid rest ih =>
      intro tr k v' h
      simp only [unmatchedFold, List.foldl_cons] at h
      obtain ⟨v1, hv1, ha1, ht1⟩ := ih _ k v' h
      obtain ⟨v0, hv0, hcase⟩ := mem_updAssoc hv1
      rcases hcase with ⟨-, hv⟩ | ⟨-, hv⟩
      · exact ⟨v0, hv0, by rw [ha1, hv, unmatchedUpdate_age],
          by rw [ht1, hv, unmatchedUpdate_tsu]⟩
      · exact ⟨v0, hv0, by rw [ha1, hv], by rw [ht1, hv]⟩

theorem predictMap_value {KF : Type} (ko : KalmanOracle KF)
    (tracks : List (ℕ × Track)) (kalman1 : List (ℕ × KF))
    (hkf : ∀ p ∈ tracks, (kalman1.lookup p.1).isSome = true)
    (k : ℕ) (v1 : Track)
    (h : (k, v1) ∈ tracks.map fun p =>
      match kalman1.lookup p.1 with
      | some kf =>
          (p.1, { p.2 with
            bbox := ko.get_bbox kf
            age := p.2.age + 1
            time_since_update := p.2.time_since_update + 1 })
      | none => p) :
    ∃ v0, (k, v0) ∈ tracks ∧ v1.age = v0.age + 1 ∧
      v1.time_since_update = v0.time_since_update + 1 := by
  obtain ⟨p, hp, hpe⟩ := List.mem_map.mp h
  obtain ⟨kf, hkfp⟩ := Option.isSome_iff_exists.mp (hkf p hp)
  rw [hkfp] at hpe
  dsimp only at hpe
  rw [Prod.mk.injEq] at hpe
  obtain ⟨h1, h2⟩ := hpe
  refine ⟨p.2, ?_, ?_, ?_⟩
  · rw [← h1]
    simpa using hp
  · rw [← h2]
  · rw [← h2]

/-- Core age/time_since_update tracking through the matched, created and
unmatched folds of `TrackingEngine.update`: a retained entry whose key is
below the fresh-id bound descends from an entry of the predicted track
list with equal age, and its `time_since_update` is either kept or reset. -/
theorem preexisting_core {KF : Type} (cfg : TrackingConfig)
    (ko : KalmanOracle KF) (dets : List Detection) (now : ℚ)
    (tracks1 : List (ℕ × Track)) (kalman1 : List (ℕ × KF))
    (matched : List (ℕ × ℕ)) (uds : List ℕ) (umt : List ℕ)
    (nid tot cid : ℕ)
    (hfresh1 : ∀ p ∈ tracks1, p.1 < nid) :
    ∀ k v,
      (k, v) ∈ unmatchedFold cfg
        (createFold ko cid dets now
          ((matchedFold cfg ko dets now (tracks1, kalman1) matched).1,
            (matchedFold cfg ko dets now (tracks1, kalman1) matched).2,
            nid, tot) uds).1 umt →
      k < nid →
      ∃ v1, (k, v1) ∈ tracks1 ∧ v.age = v1.age ∧
        (v.time_since_update = v1.time_since_update ∨
          v.time_since_update = 0) := by
  intro k v h hk
  obtain ⟨v2, hv2, ha2, ht2⟩ := unmatchedFold_age_tsu cfg umt _ k v h
  have hfresh3 : ∀ p ∈
      (matchedFold cfg ko dets now (tracks1, kalman1) matched).1,
      p.1 < nid := by
    intro p hp
    obtain ⟨v1, hv1, -, -⟩ := matchedFold_age_tsu cfg ko dets now matched
      tracks1 kalman1 p.1 p.2 (show (p.1, p.2) ∈ _ from hp)
    exact hfresh1 (p.1, v1) hv1
  have hv2' := createFold_preexisting ko cid dets now uds _ _ nid tot
    hfresh3 k v2 hv2 hk
  obtain ⟨v1, hv1, ha1, ht1⟩ := matchedFold_age_tsu cfg ko dets now
    matched tracks1 kalman1 k v2 hv2'
  refine ⟨v1, hv1, by rw [ha2, ha1], ?_⟩
  rcases ht1 with ht1 | ht1
  · exact Or.inl (by rw [ht2, ht1])
  · exact Or.inr (by rw [ht2, ht1])

/-- Pre-existing tracks retained by `TrackingEngine.update` have been
predicted: age is incremented exactly once, and `time_since_update` is
either reset by a match or incremented. -/
theorem update_preexisting_age_tsu {KF : Type} (cfg : TrackingConfig)
    (ko : KalmanOracle KF) (st : TrackerState KF)
    (dets : List Detection) (now : ℚ)
    (hnodup : (st.tracks.map Prod.fst).Nodup)
    (hkf : ∀ p ∈ st.tracks,
      (st.kalman_filters.lookup p.1).isSome = true)
    (hfresh : ∀ p ∈ st.tracks, p.1 < st.next_track_id) :
    ∀ tid t_pre t_post, (tid, t_pre) ∈ st.tracks →
      (tid, t_post) ∈ (TrackingEngine.update cfg ko st dets now).1.tracks →
      t_post.age = t_pre.age + 1 ∧
      (t_post.time_since_update = 0 ∨
        t_post.time_since_update = t_pre.time_since_update + 1) := by
  intro tid t_pre t_post hpre hpost
  have hkf1 : ∀ p ∈ st.tracks,
      ((st.kalman_filters.map fun q =>
        (q.1, ko.predict q.2)).lookup p.1).isSome = true := by
    intro p hp
    rw [lookup_isSome_map (fun q => (q.1, ko.predict q.2)) (fun q => rfl)]
    exact hkf p hp
  simp only [TrackingEngine.update] at hpost
  rw [List.mem_filter] at hpost
  have htid_lt : tid < st.next_track_id := hfresh (tid, t_pre) hpre
  have hcore := preexisting_core cfg ko dets now _ _ _ _ _ _ _ _ ?hf
    tid t_post hpost.1 htid_lt
  case hf =>
    intro p hp
    obtain ⟨v0, hv0, -, -⟩ := predictMap_value ko st.tracks _ hkf1 p.1
      p.2 (show (p.1, p.2) ∈ _ from hp)
    exact hfresh (p.1, v0) hv0
  obtain ⟨v1, hv1, ha1, ht1⟩ := hcore
  obtain ⟨v0, hv0, ha0, ht0⟩ := predictMap_value ko st.tracks _ hkf1 tid
    v1 hv1
  have hv0eq : v0 = t_pre :=
    nodup_assoc_eq st.tracks hnodup tid v0 t_pre hv0 hpre
  subst hv0eq
  constructor
  · rw [ha1, ha0]
  · rcases ht1 with ht1 | ht1
    · exact Or.inr (by rw [ht1, ht0])
    · exact Or.inl ht1


/-! ## C3: does the tracker update run on every consumed frame? -/

/-- `C3`: the amended per-frame tracking property.  `_process_frame`
returns before reaching the tracker whenever the detector reports no
detections (`main.py` lines 155–156), so the tracker is NOT updated on
zero-detection frames; on frames with at least one detection the update
runs, and every pre-existing track still retained afterwards has been
predicted exactly once: its `age` grew by one and its `time_since_update`
was either reset by a match or grew by one. -/
theorem C3_update_runs_only_on_nonempty_detections {KF : Type}
    (cfgT : TrackingConfig) (cfgO : OCRConfig) (cfgE : EventConfig)
    (ko : KalmanOracle KF) (ocrOracle : ℕ → Option (String × ℚ))
    (camera_id : ℕ) (detections : List Detection) (H now : ℚ)
    (ps : PipelineState KF) :
    (detections = [] →
      ANPRPipeline.process_frame cfgT cfgO cfgE ko ocrOracle camera_id
        detections H now ps = ps) ∧
    (detections ≠ [] →
      ∀ cb, ps.cameras camera_id = some cb →
      (cb.tracker.tracks.map Prod.fst).Nodup →
      (∀ p ∈ cb.tracker.tracks,
        (cb.tracker.kalman_filters.lookup p.1).isSome = true) →
      (∀ p ∈ cb.tracker.tracks, p.1 < cb.tracker.next_track_id) →
      ∀ cb', (ANPRPipeline.process_frame cfgT cfgO cfgE ko ocrOracle
        camera_id detections H now ps).cameras camera_id = some cb' →
      ∀ tid t_pre t_post, (tid, t_pre) ∈ cb.tracker.tracks →
        (tid, t_post) ∈ cb'.tracker.tracks →
        t_post.age = t_pre.age + 1 ∧
        (t_post.time_since_update = 0 ∨
          t_post.time_since_update = t_pre.time_since_update + 1)) := by
  constructor
  · intro he
    unfold ANPRPipeline.process_frame
    rw [if_pos he]
  · intro hne cb hcb hnodup hkfb hfrb cb' hcb' tid t_pre t_post hpre
      hpost
    unfold ANPRPipeline.process_frame at hcb'
    rw [if_neg hne, hcb] at hcb'
    dsimp only at hcb'
    rw [if_pos rfl] at hcb'
    injection hcb' with hcb'
    subst hcb'
    dsimp only at hpost
    obtain ⟨v4, hv4, ha4, ht4⟩ := fsmPhase_age_tsu cfgE H now _ _ _ _
      tid t_post hpost
    obtain ⟨v3, hv3, ha3, ht3⟩ := ocrPhase_age_tsu cfgO ocrOracle now
      _ _ _ tid v4 hv4
    have hupd := update_preexisting_age_tsu cfgT ko cb.tracker detections
      now hnodup hkfb hfrb tid t_pre v3 hpre hv3
    refine ⟨by rw [ha4, ha3, hupd.1], ?_⟩
    rcases hupd.2 with h | h
    · exact Or.inl (by rw [ht4, ht3, h])
    · exact Or.inr (by rw [ht4, ht3, h])

/-- A single concrete detection for the `C3` scenario. -/
def C3det : Detection :=
  { bbox := (0, 0, 10, 10), confidence := 1, class_id := 2,
    class_name := .car }

/-- A confirmed track (age 0) present before the `C3` frame. -/
def C3track : Track :=
  { track_id := 1, camera_id := 1, state := .confirmed,
    vehicle_type := .car, first_seen := 0, last_seen := 0,
    bbox := (0, 0, 10, 10), confidence := 1 }

/-- The camera-1 components holding `C3track`. -/
def C3bundle : CameraBundle Unit :=
  { tracker :=
      { camera_id := 1, tracks := [(1, C3track)],
        kalman_filters := [(1, ())], next_track_id := 2,
        total_tracks := 1, active_tracks := 1 }
    ocr := { enabled := false, is_loaded := false,
             last_ocr_time := fun _ => none, active_ocr_count := 0,
             total_ocr_calls := 0, successful_reads := 0,
             failed_reads := 0 }
    events := EventEngine.init 1 }

/-- The pipeline state before the `C3` frame. -/
def C3ps : PipelineState Unit :=
  { cameras := fun k => if k = 1 then some C3bundle else none
    database := { write_queue := [], total_writes := 0,
                  failed_writes := 0 } }

/-- `C3ps` after processing one frame carrying the single detection
`C3det` at time 5. -/
def C3run : PipelineState Unit :=
  ANPRPipeline.process_frame { iou_threshold := 0 } { } { } unitKO
    (fun _ => none) 1 [C3det] 1 5 C3ps

/-- The camera-1 bundle of `C3run`. -/
def C3cbPost : CameraBundle Unit :=
  match C3run.cameras 1 with
  | some cb => cb
  | none => C3bundle

/-- The value of track 1 after the `C3run` frame: predicted (bbox from
the oracle, `age` and `time_since_update` now 1) and demoted to Lost
(its IoU with `C3det` is 0, below any positive threshold, and equal to
the threshold 0 here, so it is unmatched). -/
def C3trackPost : Track :=
  { track_id := 1, camera_id := 1, state := .lost,
    vehicle_type := .car, first_seen := 0, last_seen := 0,
    bbox := (0, 0, 0, 0), confidence := 1, age := 1,
    time_since_update := 1 }

/-- Counterexample to `C3` as frozen: on a frame whose detector output is
empty, `_process_frame` returns before the tracking step, so the pipeline
state is entirely unchanged — in particular the live track of camera 1
still has `age = 0`: `predict` was not applied and no counter was
incremented for that consumed frame. -/
theorem C3_counterexample :
    ANPRPipeline.process_frame { iou_threshold := 0 } { } { } unitKO
      (fun _ => none) 1 [] 1 5 C3ps = C3ps ∧
    Option.map (fun cb => cb.tracker.tracks.map fun p => p.2.age)
      ((ANPRPipeline.process_frame { iou_threshold := 0 } { } { } unitKO
        (fun _ => none) 1 [] 1 5 C3ps).cameras 1) = some [0] :=
  ⟨rfl, rfl⟩

unseal Rat.add Rat.sub Rat.mul Rat.inv in
/-- Witness for `C3`: on the one-detection frame `C3run`, the claim's
theorem applies to the concrete pre-state `C3ps` and yields the predicted
counters of the retained track 1. -/
theorem C3_update_runs_only_on_nonempty_detections_witness :
    ([C3det] : List Detection) ≠ [] ∧
    C3trackPost.age = C3track.age + 1 ∧
    (C3trackPost.time_since_update = 0 ∨
      C3trackPost.time_since_update = C3track.time_since_update + 1) :=
  ⟨by decide,
    (C3_update_runs_only_on_nonempty_detections { iou_threshold := 0 }
      { } { } unitKO (fun _ => none) 1 [C3det] 1 5 C3ps).2 (by decide)
      C3bundle rfl (by decide) (by decide) (by decide) C3cbPost rfl 1
      C3track C3trackPost (by decide) (by decide)⟩


/-! ## C4: plate-lock immutability across a track's life -/

/-- One operation the embedded pipeline can apply to a single track during
its life: the prediction write-back of `update`, the matched-track update,
the unmatched demotion, the per-track OCR block, and the per-track FSM
step.  These are exactly the places where any `Track` field is written
after creation. -/
inductive TrackStep (KF : Type) where
  | predictStep (ko : KalmanOracle KF) (kf : KF)
  | matchedStep (cfg : TrackingConfig) (ko : KalmanOracle KF)
      (kfOpt : Option KF) (det : Detection) (now : ℚ)
  | unmatchedStep (cfg : TrackingConfig)
  | ocrStep (cfgO : OCRConfig) (oracle : Option (String × ℚ)) (now : ℚ)
      (s : OCREngineState)
  | fsmStep (cfgE : EventConfig) (s : EventEngineState) (H now : ℚ)

/-- Apply one life step to a track (the track as transformed by the
corresponding source operation). -/
def TrackStep.apply {KF : Type} : TrackStep KF → Track → Track
  | .predictStep ko kf, t =>
      { t with
        bbox := ko.get_bbox kf
        age := t.age + 1
        time_since_update := t.time_since_update + 1 }
  | .matchedStep cfg ko kfOpt det now, t =>
      matchedUpdate cfg ko kfOpt det now t
  | .unmatchedStep cfg, t => unmatchedUpdate cfg t
  | .ocrStep cfgO oracle now s, t =>
      (pipelineOCRTrack cfgO oracle now s t).1
  | .fsmStep cfgE s H now, t =>
      (EventEngine.process_track cfgE s t H now).2.2

/-- A track's trajectory: fold the life steps from an initial track. -/
def applySteps {KF : Type} (t : Track) (steps : List (TrackStep KF)) :
    Track :=
  steps.foldl (fun acc st => st.apply acc) t

theorem applySteps_append {KF : Type} (t : Track)
    (pre post : List (TrackStep KF)) :
    applySteps t (pre ++ post) = applySteps (applySteps t pre) post := by
  simp only [applySteps, List.foldl_append]

theorem add_plate_reading_locked (t : Track) (h : t.plate_locked = true)
    (text : String) (conf now : ℚ) :
    t.add_plate_reading text conf now = t := by
  unfold Track.add_plate_reading
  rw [if_pos h]

theorem add_plate_reading_keeps_lock (t : Track) (text : String)
    (conf now : ℚ) :
    (t.add_plate_reading text conf now).plate_locked = t.plate_locked ∧
    (t.add_plate_reading text conf now).plate_text = t.plate_text := by
  unfold Track.add_plate_reading
  split_ifs <;> exact ⟨rfl, rfl⟩

theorem pipelineOCRTrack_locked (cfgO : OCRConfig)
    (oracle : Option (String × ℚ)) (now : ℚ) (s : OCREngineState)
    (t : Track) (h : t.plate_locked = true) :
    pipelineOCRTrack cfgO oracle now s t = (t, s) := by
  unfold pipelineOCRTrack
  rw [if_neg (by simp [h])]

theorem matchedUpdate_plate {KF : Type} (cfg : TrackingConfig)
    (ko : KalmanOracle KF) (kfOpt : Option KF) (det : Detection)
    (now : ℚ) (t : Track) :
    (matchedUpdate cfg ko kfOpt det now t).plate_text = t.plate_text ∧
    (matchedUpdate cfg ko kfOpt det now t).plate_confidence =
      t.plate_confidence ∧
    (matchedUpdate cfg ko kfOpt det now t).plate_readings =
      t.plate_readings ∧
    (matchedUpdate cfg ko kfOpt det now t).plate_locked =
      t.plate_locked := by
  cases kfOpt with
  | none => exact ⟨rfl, rfl, rfl, rfl⟩
  | some kf =>
      unfold matchedUpdate Track.update_bbox
      dsimp only
      split_ifs <;> exact ⟨rfl, rfl, rfl, rfl⟩

theorem unmatchedUpdate_plate (cfg : TrackingConfig) (t : Track) :
    (unmatchedUpdate cfg t).plate_text = t.plate_text ∧
    (unmatchedUpdate cfg t).plate_confidence = t.plate_confidence ∧
    (unmatchedUpdate cfg t).plate_readings = t.plate_readings ∧
    (unmatchedUpdate cfg t).plate_locked = t.plate_locked := by
  unfold unmatchedUpdate
  dsimp only
  split_ifs <;> exact ⟨rfl, rfl, rfl, rfl⟩

theorem process_track_plate (cfgE : EventConfig) (s : EventEngineState)
    (t : Track) (H now : ℚ) :
    ((EventEngine.process_track cfgE s t H now).2.2).plate_text =
      t.plate_text ∧
    ((EventEngine.process_track cfgE s t H now).2.2).plate_confidence =
      t.plate_confidence ∧
    ((EventEngine.process_track cfgE s t H now).2.2).plate_readings =
      t.plate_readings ∧
    ((EventEngine.process_track cfgE s t H now).2.2).plate_locked =
      t.plate_locked := by
  unfold EventEngine.process_track
  dsimp only
  split_ifs <;> exact ⟨rfl, rfl, rfl, rfl⟩

/-- Any life step applied to a locked track keeps all four plate fields
unchanged (and the lock set). -/
theorem TrackStep.apply_locked {KF : Type} (st : TrackStep KF) (t : Track)
    (h : t.plate_locked = true) :
    (st.apply t).plate_text = t.plate_text ∧
    (st.apply t).plate_confidence = t.plate_confidence ∧
    (st.apply t).plate_readings = t.plate_readings ∧
    (st.apply t).plate_locked = true := by
  cases st with
  | predictStep ko kf =>
      dsimp only [TrackStep.apply]
      exact ⟨rfl, rfl, rfl, h⟩
  | matchedStep cfg ko kfOpt det now =>
      have hp := matchedUpdate_plate cfg ko kfOpt det now t
      dsimp only [TrackStep.apply]
      exact ⟨hp.1, hp.2.1, hp.2.2.1, hp.2.2.2.trans h⟩
  | unmatchedStep cfg =>
      have hp := unmatchedUpdate_plate cfg t
      dsimp only [TrackStep.apply]
      exact ⟨hp.1, hp.2.1, hp.2.2.1, hp.2.2.2.trans h⟩
  | ocrStep cfgO oracle now s =>
      dsimp only [TrackStep.apply]
      rw [pipelineOCRTrack_locked cfgO oracle now s t h]
      exact ⟨rfl, rfl, rfl, h⟩
  | fsmStep cfgE s H now =>
      have hp := process_track_plate cfgE s t H now
      dsimp only [TrackStep.apply]
      exact ⟨hp.1, hp.2.1, hp.2.2.1, hp.2.2.2.trans h⟩

theorem plateFinalizeStep_lock_text (cfg : OCRConfig) (t : Track) :
    (plateFinalizeStep cfg t).plate_locked = true →
    t.plate_locked = true ∨
      ∃ txt, (plateFinalizeStep cfg t).plate_text = some txt := by
  unfold plateFinalizeStep
  split_ifs with h1
  · cases hf : OCREngine.fuse_readings cfg t.plate_readings with
    | none =>
        intro hl
        exact Or.inl hl
    | some f =>
        intro hl
        exact Or.inr ⟨f.text, rfl⟩
  · intro hl
    exact Or.inl hl

theorem pipelineOCRTrack_lock_text (cfgO : OCRConfig)
    (oracle : Option (String × ℚ)) (now : ℚ) (s : OCREngineState)
    (t : Track) :
    (pipelineOCRTrack cfgO oracle now s t).1.plate_locked = true →
    t.plate_locked = true ∨
      ∃ txt, (pipelineOCRTrack cfgO oracle now s t).1.plate_text =
        some txt := by
  unfold pipelineOCRTrack
  split_ifs with h1 h2
  · dsimp only
    cases hres : (OCREngine.recognize_plate cfgO s t.track_id now
        oracle).1 with
    | none =>
        intro hl
        exact Or.inl hl
    | some p =>
        obtain ⟨text, conf⟩ := p
        dsimp only
        intro hl
        rcases plateFinalizeStep_lock_text cfgO
          (t.add_plate_reading text conf now) hl with hc | hc
        · rw [(add_plate_reading_keeps_lock t text conf now).1] at hc
          exact Or.inl hc
        · exact Or.inr hc
  · intro hl
    exact Or.inl hl
  · intro hl
    exact Or.inl hl

/-- The lock-implies-text invariant is preserved along every trajectory. -/
theorem applySteps_locked_text {KF : Type} :
    ∀ (steps : List (TrackStep KF)) (t : Track),
      (t.plate_locked = true → ∃ s, t.plate_text = some s) →
      (applySteps t steps).plate_locked = true →
      ∃ s, (applySteps t steps).plate_text = some s := by
  intro steps
  induction steps with
  | nil => intro t h; exact h
  | cons st rest ih =>
      intro t h
      have hInv : (st.apply t).plate_locked = true →
          ∃ s, (st.apply t).plate_text = some s := by
        intro hl
        by_cases hlt : t.plate_locked = true
        · obtain ⟨s0, hs0⟩ := h hlt
          have hp := TrackStep.apply_locked st t hlt
          exact ⟨s0, by rw [hp.1, hs0]⟩
        · cases st with
          | predictStep ko kf =>
              dsimp only [TrackStep.apply] at hl
              exact absurd hl hlt
          | matchedStep cfg ko kfOpt det now =>
              have hp := matchedUpdate_plate cfg ko kfOpt det now t
              dsimp only [TrackStep.apply] at hl
              rw [hp.2.2.2] at hl
              exact absurd hl hlt
          | unmatchedStep cfg =>
              have hp := unmatchedUpdate_plate cfg t
              dsimp only [TrackStep.apply] at hl
              rw [hp.2.2.2] at hl
              exact absurd hl hlt
          | ocrStep cfgO oracle now s =>
              dsimp only [TrackStep.apply] at hl ⊢
              rcases pipelineOCRTrack_lock_text cfgO oracle now s t hl
                with hc | hc
              · exact absurd hc hlt
              · exact hc
          | fsmStep cfgE s H now =>
              have hp := process_track_plate cfgE s t H now
              dsimp only [TrackStep.apply] at hl
              rw [hp.2.2.2] at hl
              exact absurd hl hlt
      have := ih (st.apply t) hInv
      simpa only [applySteps, List.foldl_cons] using this

/-- Once locked, all later steps keep the plate fields frozen. -/
theorem applySteps_locked_frozen {KF : Type} :
    ∀ (steps : List (TrackStep KF)) (t : Track),
      t.plate_locked = true →
      (applySteps t steps).plate_text = t.plate_text ∧
      (applySteps t steps).plate_confidence = t.plate_confidence ∧
      (applySteps t steps).plate_readings = t.plate_readings ∧
      (applySteps t steps).plate_locked = true := by
  intro steps
  induction steps with
  | nil => intro t h; exact ⟨rfl, rfl, rfl, h⟩
  | cons st rest ih =>
      intro t h
      have hp := TrackStep.apply_locked st t h
      have hr := ih (st.apply t) hp.2.2.2
      refine ⟨?_, ?_, ?_, ?_⟩
      · show (applySteps (st.apply t) rest).plate_text = t.plate_text
        rw [hr.1, hp.1]
      · show (applySteps (st.apply t) rest).plate_confidence =
          t.plate_confidence
        rw [hr.2.1, hp.2.1]
      · show (applySteps (st.apply t) rest).plate_readings =
          t.plate_readings
        rw [hr.2.2.1, hp.2.2.1]
      · show (applySteps (st.apply t) rest).plate_locked = true
        exact hr.2.2.2

/-- `C4`: for every track starting unlocked (as every created track does:
`plate_locked` is initialized false), along any trajectory of pipeline
steps: (i) whenever the plate is locked, `plate_text` is non-null; (ii)
once locked after some prefix, the remaining steps change none of
`plate_text`, `plate_confidence`, `plate_readings`, and the lock stays
set; (iii) `add_plate_reading` on a locked track appends nothing; (iv)
the pipeline's per-track OCR block leaves a locked track and the OCR
engine state untouched (no recognition, no finalization). -/
theorem C4_plate_lock_immutable {KF : Type} (t0 : Track)
    (h0 : t0.plate_locked = false) (pre post : List (TrackStep KF)) :
    ((applySteps t0 pre).plate_locked = true →
      ∃ s, (applySteps t0 pre).plate_text = some s) ∧
    ((applySteps t0 pre).plate_locked = true →
      (applySteps t0 (pre ++ post)).plate_text =
        (applySteps t0 pre).plate_text ∧
      (applySteps t0 (pre ++ post)).plate_confidence =
        (applySteps t0 pre).plate_confidence ∧
      (applySteps t0 (pre ++ post)).plate_readings =
        (applySteps t0 pre).plate_readings ∧
      (applySteps t0 (pre ++ post)).plate_locked = true) ∧
    (∀ text conf now, (applySteps t0 pre).plate_locked = true →
      (applySteps t0 pre).add_plate_reading text conf now =
        applySteps t0 pre) ∧
    (∀ cfgO oracle now s, (applySteps t0 pre).plate_locked = true →
      pipelineOCRTrack cfgO oracle now s (applySteps t0 pre) =
        (applySteps t0 pre, s)) := by
  refine ⟨?_, ?_, ?_, ?_⟩
  · exact applySteps_locked_text pre t0
      (fun hc => absurd hc (by rw [h0]; exact fun hx => nomatch hx))
  · intro hl
    rw [applySteps_append t0 pre post]
    exact applySteps_locked_frozen post (applySteps t0 pre) hl
  · intro text conf now hl
    exact add_plate_reading_locked _ hl text conf now
  · intro cfgO oracle now s hl
    exact pipelineOCRTrack_locked cfgO oracle now s _ hl

/-- The OCR engine state for the `C4` witness scenario: enabled, loaded,
idle, no per-track OCR timestamps. -/
def C4s : OCREngineState :=
  { enabled := true, is_loaded := true, last_ocr_time := fun _ => none,
    active_ocr_count := 0, total_ocr_calls := 0, successful_reads := 0,
    failed_reads := 0 }

/-- The OCR config for the `C4` witness: one sample suffices to fuse. -/
def C4cfgO : OCRConfig :=
  { min_plate_confidence := 0, fusion_min_samples := 1 }

/-- The initial (unlocked, confirmed) track of the `C4` witness. -/
def C4t0 : Track :=
  { track_id := 7, camera_id := 1, state := .confirmed,
    vehicle_type := .car, first_seen := 0, last_seen := 0,
    bbox := (0, 0, 10, 10), confidence := 1 }

/-- A prefix that locks the plate: one OCR step whose oracle reads
`ABC1234`; with one reading and `fusion_min_samples = 1`, fusion fires
and the pipeline finalizes the plate. -/
def C4pre : List (TrackStep Unit) :=
  [.ocrStep C4cfgO (some ("ABC1234", 9)) 5 C4s]

/-- Later life steps after the lock: an unmatched demotion and an FSM
step. -/
def C4post : List (TrackStep Unit) :=
  [.unmatchedStep { }, .fsmStep { } (EventEngine.init 1) 100 6]

unseal Rat.add Rat.sub Rat.mul Rat.inv in
/-- Witness for `C4`: the concrete track `C4t0` gets locked by the OCR
step of `C4pre`, and the theorem yields that the following steps freeze
the plate fields. -/
theorem C4_plate_lock_immutable_witness :
    C4t0.plate_locked = false ∧
    (applySteps C4t0 C4pre).plate_locked = true ∧
    ((applySteps C4t0 (C4pre ++ C4post)).plate_text =
        (applySteps C4t0 C4pre).plate_text ∧
      (applySteps C4t0 (C4pre ++ C4post)).plate_confidence =
        (applySteps C4t0 C4pre).plate_confidence ∧
      (applySteps C4t0 (C4pre ++ C4post)).plate_readings =
        (applySteps C4t0 C4pre).plate_readings ∧
      (applySteps C4t0 (C4pre ++ C4post)).plate_locked = true) :=
  ⟨by decide, by decide,
    (C4_plate_lock_immutable C4t0 (by decide) C4pre C4post).2.1
      (by decide)⟩

end ANPR
